import Mathlib

/-!
Verification of the `kvs` log-structured key/value storage engine
(`src/engines/kvs.rs`).  The on-disk state is modelled as an association
list from term numbers to file contents, a file being the list of
commands appended to it (offsets and lengths are recovered from the
serde_json encoding size of each command).  The in-memory `SkipMap`
index is modelled as a key-sorted association list, matching the sorted
iteration order the compaction loop relies on.
-/

set_option autoImplicit false

namespace Kvs

/-- Commands are the only values ever written to a log file
(`enum Command` in `src/engines/kvs.rs`). -/
inductive Command where
  | set (key value : String)
  | remove (key : String)
deriving DecidableEq, Repr

/-- Position of a record inside the log (`struct Pos`): owning term,
byte offset in that term's file, and encoded byte length. -/
structure Pos where
  term : Nat
  offset : Nat
  len : Nat
deriving DecidableEq, Repr

/-- Number of bytes serde_json uses for one character inside a JSON
string: `"` and `\` are escaped with a backslash, the five short
control escapes take two bytes, remaining control characters take a
six-byte `\u00XX` escape, and everything else is raw UTF-8. -/
def jsonCharLen (c : Char) : Nat :=
  if c = '"' ∨ c = '\\' then 2
  else if c = Char.ofNat 8 ∨ c = Char.ofNat 9 ∨ c = Char.ofNat 10
      ∨ c = Char.ofNat 12 ∨ c = Char.ofNat 13 then 2
  else if c.toNat < 32 then 6
  else c.utf8Size

/-- Encoded size of a JSON string literal, quotes included. -/
def jsonStrLen (s : String) : Nat :=
  2 + (s.data.map jsonCharLen).sum

/-- Encoded byte length of one command as written by
`serde_json::to_writer`: `{"Set":{"key":K,"value":V}}` respectively
`{"Remove":{"key":K}}`. -/
def encLen : Command → Nat
  | .set k v => 25 + jsonStrLen k + jsonStrLen v
  | .remove k => 19 + jsonStrLen k

/-! ### Key-sorted association lists

`crossbeam_skiplist::SkipMap` (the index) and `BTreeMap` (the reader
cache, the set of term files) are ordered maps; we model both as
association lists sorted strictly by key. -/

/-- Lookup of the first binding of a key. -/
def alLookup {α : Type} {β : Type} [DecidableEq α] : List (α × β) → α → Option β
  | [], _ => none
  | e :: rest, k => if e.1 = k then some e.2 else alLookup rest k

/-- Ordered insert-or-replace, keeping the list sorted by key. -/
def alInsert {α : Type} {β : Type} [LinearOrder α] [DecidableEq α] :
    List (α × β) → α → β → List (α × β)
  | [], k, v => [(k, v)]
  | e :: rest, k, v =>
    if k = e.1 then (k, v) :: rest
    else if k < e.1 then (k, v) :: e :: rest
    else e :: alInsert rest k v

/-- Removal of the binding of a key, if present. -/
def alErase {α : Type} {β : Type} [DecidableEq α] : List (α × β) → α → List (α × β)
  | [], _ => []
  | e :: rest, k => if e.1 = k then rest else e :: alErase rest k

/-- Strict sortedness of the keys of an association list. -/
abbrev KeySorted {α : Type} {β : Type} [LinearOrder α] (l : List (α × β)) : Prop :=
  l.Pairwise (fun a b => a.1 < b.1)


/-! ### Disk model

A log file is the list of commands appended to it; the directory is an
association list from term number to file contents, kept sorted by term
(the canonical representation of an unordered directory). -/

/-- Contents of one `<term>.log` file. -/
abbrev LogFile := List Command

/-- Contents of the storage directory. -/
abbrev Disk := List (Nat × LogFile)

/-- In-memory key index (the `SkipMap<String, Pos>`), modelled as a
key-sorted association list matching the skip list's iteration order. -/
abbrev Index := List (String × Pos)

/-- Total encoded size of a file in bytes. -/
def fileBytes (f : LogFile) : Nat := (f.map encLen).sum

/-- Open an existing log file of the directory. -/
def diskGet (d : Disk) (t : Nat) : Option LogFile := alLookup d t

/-- Append one encoded command to the file of term `t` (a sequential
write through the active append handle). -/
def diskAppend : Disk → Nat → Command → Disk
  | [], t, c => [(t, [c])]
  | f :: rest, t, c =>
    if f.1 = t then (f.1, f.2 ++ [c]) :: rest else f :: diskAppend rest t c

/-- Effect of `OpenOptions::new().create(true)` on the directory: the
file is created empty when absent and left untouched when present. -/
def diskCreate (d : Disk) (t : Nat) : Disk :=
  match diskGet d t with
  | some _ => d
  | none => alInsert d t []

/-- Decoding one record at a position: seek to `p.offset`, read
`p.len` bytes, decode one command.  The scan succeeds exactly when the
position designates a whole record (serde_json rejects both truncated
input and trailing bytes within the `take(len)` window). -/
def findRecord : LogFile → Nat → Pos → Option Command
  | [], _, _ => none
  | c :: rest, off, p =>
    if off = p.offset ∧ encLen c = p.len then some c
    else findRecord rest (off + encLen c) p

/-- Error type of the engine (`KvsError`), restricted to the variants
the storage engine can produce. -/
inductive KvsError where
  | keyNotFound
  | unexpectedCommandType
  | io
  | serdeJson
deriving DecidableEq, Repr

/-- Read path of `KvsReader::read_and`/`read_cmd`: a missing file is
an I/O error, a position not designating a whole record is a
deserialization error. -/
def readCmd (d : Disk) (p : Pos) : Except KvsError Command :=
  match diskGet d p.term with
  | none => .error .io
  | some f =>
    match findRecord f 0 p with
    | none => .error .serdeJson
    | some c => .ok c

/-! ### Reader handle cache (`KvsReader`)

The per-view cache is a `BTreeMap<u64, BufReader<File>>`; we model its
key set as a sorted list of terms. -/

/-- Eviction loop of `KvsReader::close_stale_handles`: repeatedly drop
the smallest cached term until it reaches the safe point. -/
def close_stale_handles (sp : Nat) : List Nat → List Nat
  | [] => []
  | t :: rest => if sp ≤ t then t :: rest else close_stale_handles sp rest

/-- Cache update of `KvsReader::read_and`: open and cache the file of
the requested term when it is not cached yet. -/
def cacheAdd : List Nat → Nat → List Nat
  | [], t => [t]
  | u :: rest, t =>
    if t < u then t :: u :: rest
    else if t = u then u :: rest
    else u :: cacheAdd rest t

/-- Cache state at the moment `read_and` performs its read: stale
handles evicted, then the requested term cached. -/
def readAndCache (sp : Nat) (cache : List Nat) (t : Nat) : List Nat :=
  cacheAdd (close_stale_handles sp cache) t

/-! ### Writer state and operations (`KvsWriter`, `KvStore`) -/

/-- Compaction threshold (`COMPACTION_THRESHOLD`), 1 MiB. -/
def COMPACTION_THRESHOLD : Nat := 1024 * 1024

/-- State of the engine visible to the sequential semantics: directory
contents, index, the writer's current term, its dead-byte counter and
the shared safe point. -/
structure KvState where
  disk : Disk
  index : Index
  current_term : Nat
  uncompacted : Nat
  safe_point : Nat
deriving Repr

/-- Contents of the active append file. -/
def currentFile (s : KvState) : LogFile := (diskGet s.disk s.current_term).getD []

/-- Copy loop of `KvsWriter::compact`: walk a snapshot of the index in
key order; for each entry re-read its record, copy its bytes to the
compaction-output file at the running offset, and republish the key at
the new position.  The byte copy of a record-aligned region is
modelled by appending the decoded command (invariant I1); a failing
read surfaces the error with the partially-updated state. -/
def compactLoop (compact_term : Nat) :
    Index → Disk → Index → Nat → (Except KvsError Unit) × Disk × Index × Nat
  | [], disk, index, offset => (.ok (), disk, index, offset)
  | (k, p) :: rest, disk, index, offset =>
    match readCmd disk p with
    | .error e => (.error e, disk, index, offset)
    | .ok c =>
      compactLoop compact_term rest (diskAppend disk compact_term c)
        (alInsert index k { term := compact_term, offset := offset, len := p.len })
        (offset + p.len)

/-- The `KvsWriter::compact` algorithm: allocate `current_term + 1` as
compaction-output term and `current_term + 2` as the new append term,
create both files, copy every live record, raise the safe point to the
compaction term and delete every file of a strictly smaller term. -/
def compact (s : KvState) : (Except KvsError Unit) × KvState :=
  let compact_term := s.current_term + 1
  let new_term := s.current_term + 2
  let disk0 := diskCreate (diskCreate s.disk compact_term) new_term
  match compactLoop compact_term s.index disk0 s.index 0 with
  | (.error e, disk1, index1, _) =>
    (.error e, { s with disk := disk1, index := index1, current_term := new_term })
  | (.ok _, disk1, index1, _) =>
    (.ok (), { disk := disk1.filter (fun f => decide (compact_term ≤ f.1)),
               index := index1,
               current_term := new_term,
               uncompacted := 0,
               safe_point := compact_term })

/-- The `KvsWriter::set` operation: append the record at the current
end of the active file, publish the new position, account the
displaced record, and compact when the counter exceeds the
threshold. -/
def wSet (s : KvState) (key value : String) : (Except KvsError Unit) × KvState :=
  let cmd := Command.set key value
  let offset := fileBytes (currentFile s)
  let pos : Pos := { term := s.current_term, offset := offset, len := encLen cmd }
  let uncompacted' :=
    match alLookup s.index key with
    | some prev => s.uncompacted + prev.len
    | none => s.uncompacted
  let s' := { s with disk := diskAppend s.disk s.current_term cmd,
                     index := alInsert s.index key pos,
                     uncompacted := uncompacted' }
  if COMPACTION_THRESHOLD < s'.uncompacted then compact s' else (.ok (), s')

/-- The `KvsWriter::remove` operation: when the key is present, append
a `Remove` record, drop the index entry and account the removed
record; when it is absent, check the compaction threshold and fail
with `KeyNotFound`. -/
def wRemove (s : KvState) (key : String) : (Except KvsError Unit) × KvState :=
  match alLookup s.index key with
  | some prev =>
    (.ok (), { s with disk := diskAppend s.disk s.current_term (Command.remove key),
                      index := alErase s.index key,
                      uncompacted := s.uncompacted + prev.len })
  | none =>
    if COMPACTION_THRESHOLD < s.uncompacted then
      match compact s with
      | (.ok _, s') => (.error .keyNotFound, s')
      | (.error e, s') => (.error e, s')
    else (.error .keyNotFound, s)

/-- The `KvStore::get` operation: index lookup, then decode the record
at the stored position; a decoded record that is not a `Set` is an
`UnexpectedCommandType` error. -/
def get (s : KvState) (key : String) : Except KvsError (Option String) :=
  match alLookup s.index key with
  | none => .ok none
  | some p =>
    match readCmd s.disk p with
    | .error e => .error e
    | .ok (.set _ v) => .ok (some v)
    | .ok (.remove _) => .error .unexpectedCommandType

/-! ### Recovery (`load`, `sorted_terms`, `KvStore::open`) -/

/-- Record replay loop of `load`: decode records sequentially,
tracking byte offsets; a `Set` displaces the previous position of its
key into the dead-byte count, a `Remove` additionally counts its own
bytes.  The index and the running dead-byte counter are threaded
through (the source accumulates per-file deltas that `open` sums; the
additions are identical). -/
def loadFileAux (term : Nat) : LogFile → Nat → Index → Nat → Index × Nat
  | [], _, index, uncompacted => (index, uncompacted)
  | c :: rest, offset, index, uncompacted =>
    let new_offset := offset + encLen c
    let pos : Pos := { term := term, offset := offset, len := encLen c }
    match c with
    | .set k _ =>
      let uncompacted' :=
        match alLookup index k with
        | some prev => uncompacted + prev.len
        | none => uncompacted
      loadFileAux term rest new_offset (alInsert index k pos) uncompacted'
    | .remove k =>
      let uncompacted' :=
        (match alLookup index k with
         | some prev => uncompacted + prev.len
         | none => uncompacted) + (new_offset - offset)
      loadFileAux term rest new_offset (alErase index k) uncompacted'

/-- Replay of one term file from offset 0 (`load`). -/
def load (t : Nat) (f : LogFile) (st : Index × Nat) : Index × Nat :=
  loadFileAux t f 0 st.1 st.2

/-- Ascending insertion used by `sorted_terms`. -/
def insertByTerm (f : Nat × LogFile) : Disk → Disk
  | [] => [f]
  | g :: rest => if f.1 ≤ g.1 then f :: g :: rest else g :: insertByTerm f rest

/-- The `sorted_terms` scan: the directory entries sorted by parsed
term number, in ascending order. -/
def sorted_terms (d : Disk) : Disk := d.foldr insertByTerm []

/-- The `KvStore::open` recovery: replay every term file in ascending
order, pick `max term + 1` (or 1) as the current term, create its
append file, and initialize the safe point to 0. -/
def openStore (dir : Disk) : KvState :=
  let files := sorted_terms dir
  let loaded := files.foldl (fun st f => load f.1 f.2 st) ([], 0)
  let current_term := ((files.map (fun f => f.1)).getLast?.getD 0) + 1
  { disk := diskCreate files current_term,
    index := loaded.1,
    current_term := current_term,
    uncompacted := loaded.2,
    safe_point := 0 }

/-! ### Operation sequences -/

/-- A client-visible mutation request. -/
inductive Op where
  | set (key value : String)
  | remove (key : String)
deriving DecidableEq, Repr

/-- Dispatch of one mutation through the engine facade. -/
def execOp (s : KvState) : Op → (Except KvsError Unit) × KvState
  | .set k v => wSet s k v
  | .remove k => wRemove s k

/-- Run a sequence of mutations, requiring each to return success. -/
def runOk (s : KvState) : List Op → Option KvState
  | [] => some s
  | op :: rest =>
    match execOp s op with
    | (.ok _, s') => runOk s' rest
    | (.error _, _) => none

/-- Run a sequence of mutations, keeping the engine state whether or
not each call succeeds (the engine outlives failed calls). -/
def runAll (s : KvState) (ops : List Op) : KvState :=
  ops.foldl (fun s op => (execOp s op).2) s

/-- Key targeted by a mutation. -/
def opKey : Op → String
  | .set k _ => k
  | .remove k => k

/-- Oracle: outcome of the last operation of the sequence touching a
key (`some (some v)` last set `v`, `some none` last removed, `none`
untouched). -/
def lastOp (ops : List Op) (k : String) : Option (Option String) :=
  ops.foldl
    (fun acc op =>
      match op with
      | .set k' v => if k' = k then some (some v) else acc
      | .remove k' => if k' = k then some none else acc)
    none

/-! ### Measures used by the claims -/

/-- Every record of a file, paired with its position. -/
def positionedRecords (t : Nat) : LogFile → Nat → List (Pos × Command)
  | [], _ => []
  | c :: rest, off =>
    ({ term := t, offset := off, len := encLen c }, c) ::
      positionedRecords t rest (off + encLen c)

/-- Every record of the directory in file order. -/
def allRecords : Disk → List (Pos × Command)
  | [] => []
  | f :: rest => positionedRecords f.1 f.2 0 ++ allRecords rest

/-- Whether some index entry stores exactly this position. -/
def referencedBy (ix : Index) (p : Pos) : Bool :=
  ix.any (fun e => decide (e.2 = p))

/-- Bytes of on-disk records not referenced by any position in the
index (the dead bytes of invariant I5). -/
def unreferencedBytes (d : Disk) (ix : Index) : Nat :=
  (((allRecords d).filter (fun r => ! referencedBy ix r.1)).map (fun r => r.1.len)).sum

/-- Bytes of `Set` records only. -/
def cmdSetBytes : Command → Nat
  | .set k v => encLen (.set k v)
  | .remove _ => 0

/-- Total bytes of `Set` records on disk. -/
def setBytes (d : Disk) : Nat := (d.map (fun f => (f.2.map cmdSetBytes).sum)).sum

/-- Total bytes referenced by the index. -/
def liveBytes (ix : Index) : Nat := (ix.map (fun e => e.2.len)).sum

/-- Recovery step as the specification words it: one record processed
in scan order, with its position; a `Set` replaces the index entry and
counts a displaced predecessor, a `Remove` drops the entry and counts
both the predecessor and its own length. -/
def recoveryStep (st : Index × Nat) (r : Pos × Command) : Index × Nat :=
  match r.2 with
  | .set k _ =>
    (alInsert st.1 k r.1,
     match alLookup st.1 k with
     | some prev => st.2 + prev.len
     | none => st.2)
  | .remove k =>
    (alErase st.1 k,
     (match alLookup st.1 k with
      | some prev => st.2 + prev.len
      | none => st.2) + r.1.len)

/-- Index component of a full recovery replay. -/
def loadAllIndex (d : Disk) : Index :=
  (d.foldl (fun st f => load f.1 f.2 st) ([], 0)).1

/-- New index positions allocated by the compaction loop for a list of
entries, starting at a given output offset. -/
def newPoss (ct : Nat) : Index → Nat → Index
  | [], _ => []
  | (k, p) :: rest, off =>
    (k, { term := ct, offset := off, len := p.len }) :: newPoss ct rest (off + p.len)

/-- Correspondence between index entries and the records the
compaction loop copies for them: each record is a `Set` of the entry's
key whose encoded length is the entry's stored length. -/
def recsMatch : Index → List Command → Prop
  | [], [] => True
  | (k, p) :: es, c :: cs =>
    (∃ v, c = Command.set k v) ∧ encLen c = p.len ∧ recsMatch es cs
  | _, _ => False

/-- Well-formedness of a directory listing: distinct term files in
ascending term order (the canonical form of an unordered directory). -/
def DiskWF (d : Disk) : Prop := KeySorted d

/-- State produced by the append/publish phase of `KvsWriter::set`,
before the compaction-threshold check. -/
def setBase (s : KvState) (k v : String) : KvState :=
  { s with disk := diskAppend s.disk s.current_term (Command.set k v),
           index := alInsert s.index k
             { term := s.current_term, offset := fileBytes (currentFile s),
               len := encLen (Command.set k v) },
           uncompacted :=
             match alLookup s.index k with
             | some prev => s.uncompacted + prev.len
             | none => s.uncompacted }

/-- State produced by the success branch of `KvsWriter::remove` for a
key stored at `prev`. -/
def removeBase (s : KvState) (k : String) (prev : Pos) : KvState :=
  { s with disk := diskAppend s.disk s.current_term (Command.remove k),
           index := alErase s.index k,
           uncompacted := s.uncompacted + prev.len }

/-- Invariant satisfied by every reachable engine state: both maps are
sorted, the active append file exists and carries the largest term,
the safe point lags the current term and every published position,
every index entry decodes to a `Set` of its own key (spec invariant
I1), replaying the directory reproduces the index (crash
consistency), and the dead-byte counter dominates the bytes of
unreferenced `Set` records (the provable part of spec invariant
I5). -/
structure Inv (s : KvState) : Prop where
  idx_sorted : KeySorted s.index
  disk_sorted : KeySorted s.disk
  cur_file : (diskGet s.disk s.current_term).isSome
  terms_le : ∀ f ∈ s.disk, f.1 ≤ s.current_term
  sp_lt : s.safe_point < s.current_term
  sp_le : ∀ e ∈ s.index, s.safe_point ≤ e.2.term
  term_le : ∀ e ∈ s.index, e.2.term ≤ s.current_term
  valid : ∀ e ∈ s.index, ∃ v, readCmd s.disk e.2 = Except.ok (Command.set e.1 v)
  reconstruct : ∀ k, alLookup (loadAllIndex s.disk) k = alLookup s.index k
  acc : setBytes s.disk ≤ liveBytes s.index + s.uncompacted

theorem encLen_pos (c : Command) : 0 < encLen c := by
  cases c <;> simp [encLen]

section AssocLemmas

variable {α : Type} {β : Type} [LinearOrder α] [DecidableEq α]

theorem alLookup_cons (f : α × β) (rest : List (α × β)) (k : α) :
    alLookup (f :: rest) k = if f.1 = k then some f.2 else alLookup rest k := rfl

theorem alInsert_cons (f : α × β) (rest : List (α × β)) (k : α) (v : β) :
    alInsert (f :: rest) k v =
      if k = f.1 then (k, v) :: rest
      else if k < f.1 then (k, v) :: f :: rest
      else f :: alInsert rest k v := rfl

theorem alErase_cons (f : α × β) (rest : List (α × β)) (k : α) :
    alErase (f :: rest) k = if f.1 = k then rest else f :: alErase rest k := rfl

theorem alLookup_eq_none_of_forall_ne (l : List (α × β)) (k : α)
    (h : ∀ e ∈ l, e.1 ≠ k) : alLookup l k = none := by
  induction l with
  | nil => rfl
  | cons e rest ih =>
    simp only [alLookup, if_neg (h e (List.mem_cons_self _ _))]
    exact ih (fun f hf => h f (List.mem_cons_of_mem _ hf))

theorem alLookup_alInsert_self (l : List (α × β)) (k : α) (v : β) :
    alLookup (alInsert l k v) k = some v := by
  induction l with
  | nil => simp [alInsert, alLookup]
  | cons e rest ih =>
    rw [alInsert_cons]
    by_cases h2 : k = e.1
    · rw [if_pos h2, alLookup_cons, if_pos rfl]
    · rw [if_neg h2]
      by_cases h1 : k < e.1
      · rw [if_pos h1, alLookup_cons, if_pos rfl]
      · have hne : e.1 ≠ k := fun h => h2 h.symm
        rw [if_neg h1, alLookup_cons, if_neg hne]
        exact ih

theorem alLookup_alInsert_ne (l : List (α × β)) (k k' : α) (v : β) (h : k' ≠ k) :
    alLookup (alInsert l k v) k' = alLookup l k' := by
  have hkk : k ≠ k' := fun hh => h hh.symm
  induction l with
  | nil =>
    show (if k = k' then some v else alLookup [] k') = alLookup [] k'
    rw [if_neg hkk]
  | cons e rest ih =>
    rw [alInsert_cons]
    by_cases h2 : k = e.1
    · rw [if_pos h2, alLookup_cons, if_neg hkk, alLookup_cons, if_neg (h2 ▸ hkk)]
    · rw [if_neg h2]
      by_cases h1 : k < e.1
      · rw [if_pos h1, alLookup_cons, if_neg hkk]
      · rw [if_neg h1, alLookup_cons, alLookup_cons, ih]

theorem alLookup_alErase_self (l : List (α × β)) (k : α)
    (hs : KeySorted l) : alLookup (alErase l k) k = none := by
  induction l with
  | nil => rfl
  | cons e rest ih =>
    rcases List.pairwise_cons.mp hs with ⟨hrel, hrest⟩
    rw [alErase_cons]
    by_cases h1 : e.1 = k
    · rw [if_pos h1]
      exact alLookup_eq_none_of_forall_ne rest k
        (fun f hf => fun hh => absurd ((h1 ▸ hh) ▸ hrel f hf) (lt_irrefl _))
    · rw [if_neg h1, alLookup_cons, if_neg h1]
      exact ih hrest

theorem alLookup_alErase_ne (l : List (α × β)) (k k' : α) (h : k' ≠ k)
    (hs : KeySorted l) : alLookup (alErase l k) k' = alLookup l k' := by
  induction l with
  | nil => rfl
  | cons e rest ih =>
    rcases List.pairwise_cons.mp hs with ⟨hrel, hrest⟩
    rw [alErase_cons]
    by_cases h1 : e.1 = k
    · have hne : e.1 ≠ k' := fun hh => h (hh.symm.trans h1)
      rw [if_pos h1, alLookup_cons, if_neg hne]
    · rw [if_neg h1, alLookup_cons, alLookup_cons, ih hrest]

theorem mem_alInsert (l : List (α × β)) (k : α) (v : β) (e : α × β)
    (hs : KeySorted l) (hm : e ∈ alInsert l k v) :
    e = (k, v) ∨ (e ∈ l ∧ e.1 ≠ k) := by
  induction l with
  | nil =>
    rcases List.mem_singleton.mp hm with h
    exact Or.inl h
  | cons f rest ih =>
    rcases List.pairwise_cons.mp hs with ⟨hrel, hrest⟩
    rw [alInsert_cons] at hm
    by_cases h2 : k = f.1
    · rw [if_pos h2] at hm
      rcases List.mem_cons.mp hm with h | h
      · exact Or.inl h
      · refine Or.inr ⟨List.mem_cons_of_mem _ h, ?_⟩
        have := hrel e h
        exact fun hk => absurd ((h2 ▸ hk) ▸ this) (lt_irrefl _)
    · rw [if_neg h2] at hm
      by_cases h1 : k < f.1
      · rw [if_pos h1] at hm
        rcases List.mem_cons.mp hm with h | h
        · exact Or.inl h
        · rcases List.mem_cons.mp h with h' | h'
          · refine Or.inr ⟨h' ▸ List.mem_cons_self _ _, ?_⟩
            rw [h']
            exact fun hk => absurd (hk ▸ h1) (lt_irrefl _)
          · refine Or.inr ⟨List.mem_cons_of_mem _ h', ?_⟩
            have := hrel e h'
            exact fun hk => absurd (hk ▸ (h1.trans this)) (lt_irrefl _)
      · rw [if_neg h1] at hm
        rcases List.mem_cons.mp hm with h | h
        · refine Or.inr ⟨h ▸ List.mem_cons_self _ _, ?_⟩
          rw [h]
          exact fun hk => h2 hk.symm
        · rcases ih hrest h with h' | h'
          · exact Or.inl h'
          · exact Or.inr ⟨List.mem_cons_of_mem _ h'.1, h'.2⟩

theorem mem_alErase (l : List (α × β)) (k : α) (e : α × β)
    (hm : e ∈ alErase l k) : e ∈ l := by
  induction l with
  | nil => exact absurd hm (List.not_mem_nil _)
  | cons f rest ih =>
    rw [alErase_cons] at hm
    by_cases h1 : f.1 = k
    · rw [if_pos h1] at hm
      exact List.mem_cons_of_mem _ hm
    · rw [if_neg h1] at hm
      rcases List.mem_cons.mp hm with h | h
      · exact h ▸ List.mem_cons_self _ _
      · exact List.mem_cons_of_mem _ (ih h)

theorem keySorted_alInsert (l : List (α × β)) (k : α) (v : β)
    (hs : KeySorted l) : KeySorted (alInsert l k v) := by
  induction l with
  | nil => simp [alInsert]
  | cons f rest ih =>
    rcases List.pairwise_cons.mp hs with ⟨hrel, hrest⟩
    rw [alInsert_cons]
    by_cases h2 : k = f.1
    · rw [if_pos h2]
      refine List.pairwise_cons.mpr ⟨?_, hrest⟩
      intro b hb
      exact h2 ▸ hrel b hb
    · rw [if_neg h2]
      by_cases h1 : k < f.1
      · rw [if_pos h1]
        refine List.pairwise_cons.mpr ⟨?_, hs⟩
        intro b hb
        rcases List.mem_cons.mp hb with h | h
        · exact h ▸ h1
        · exact h1.trans (hrel b h)
      · have hlt : f.1 < k := by
          rcases lt_trichotomy k f.1 with h | h | h
          · exact absurd h h1
          · exact absurd h h2
          · exact h
        rw [if_neg h1]
        refine List.pairwise_cons.mpr ⟨?_, ih hrest⟩
        intro b hb
        rcases mem_alInsert rest k v b hrest hb with h | h
        · exact h ▸ hlt
        · exact hrel b h.1

theorem keySorted_alErase (l : List (α × β)) (k : α)
    (hs : KeySorted l) : KeySorted (alErase l k) := by
  induction l with
  | nil => exact hs
  | cons f rest ih =>
    rcases List.pairwise_cons.mp hs with ⟨hrel, hrest⟩
    rw [alErase_cons]
    by_cases h1 : f.1 = k
    · rw [if_pos h1]
      exact hrest
    · rw [if_neg h1]
      refine List.pairwise_cons.mpr ⟨?_, ih hrest⟩
      intro b hb
      exact hrel b (mem_alErase rest k b hb)

theorem alLookup_eq_some_of_mem (l : List (α × β)) (e : α × β)
    (hs : KeySorted l) (hm : e ∈ l) : alLookup l e.1 = some e.2 := by
  induction l with
  | nil => exact absurd hm (List.not_mem_nil _)
  | cons f rest ih =>
    rcases List.pairwise_cons.mp hs with ⟨hrel, hrest⟩
    rcases List.mem_cons.mp hm with h | h
    · subst h
      simp [alLookup]
    · have hne : f.1 ≠ e.1 := fun hk => absurd (hk ▸ hrel e h) (lt_irrefl _)
      simp only [alLookup, if_neg hne]
      exact ih hrest h

theorem mem_of_alLookup_eq_some (l : List (α × β)) (k : α) (v : β)
    (h : alLookup l k = some v) : (k, v) ∈ l := by
  induction l with
  | nil => simp [alLookup] at h
  | cons f rest ih =>
    by_cases h1 : f.1 = k
    · simp only [alLookup, if_pos h1] at h
      have : f = (k, v) := by
        cases f
        simp only [Option.some.injEq] at h
        simp_all
      exact this ▸ List.mem_cons_self _ _
    · simp only [alLookup, if_neg h1] at h
      exact List.mem_cons_of_mem _ (ih h)

end AssocLemmas

/-! ### Lemmas about the disk model -/

theorem alLookup_none_iff_forall {α β : Type} [LinearOrder α]
    (l : List (α × β)) (k : α) :
    alLookup l k = none ↔ ∀ e ∈ l, e.1 ≠ k := by
  induction l with
  | nil => simp [alLookup]
  | cons f rest ih =>
    rw [alLookup_cons]
    by_cases h1 : f.1 = k
    · simp [h1]
    · simp only [if_neg h1, ih, List.mem_cons]
      constructor
      · rintro h e (rfl | he)
        · exact h1
        · exact h e he
      · intro h e he
        exact h e (Or.inr he)

theorem alLookup_append {α β : Type} [LinearOrder α]
    (l1 l2 : List (α × β)) (k : α) :
    alLookup (l1 ++ l2) k =
      match alLookup l1 k with
      | some v => some v
      | none => alLookup l2 k := by
  induction l1 with
  | nil => simp [alLookup]
  | cons f rest ih =>
    rw [List.cons_append, alLookup_cons, alLookup_cons]
    by_cases h1 : f.1 = k
    · simp [h1]
    · simp only [if_neg h1]
      exact ih

theorem alInsert_append_of_gt {α β : Type} [LinearOrder α]
    (l : List (α × β)) (k : α) (v : β) (h : ∀ e ∈ l, e.1 < k) :
    alInsert l k v = l ++ [(k, v)] := by
  induction l with
  | nil => rfl
  | cons f rest ih =>
    have hf := h f (List.mem_cons_self _ _)
    rw [alInsert_cons, if_neg (asymm hf), if_neg (ne_of_gt hf)]
    rw [ih (fun e he => h e (List.mem_cons_of_mem _ he)), List.cons_append]

theorem diskGet_diskAppend_self (d : Disk) (t : Nat) (c : Command) :
    diskGet (diskAppend d t c) t = some ((diskGet d t).getD [] ++ [c]) := by
  induction d with
  | nil => simp [diskAppend, diskGet, alLookup]
  | cons f rest ih =>
    by_cases h1 : f.1 = t
    · simp [diskAppend, h1, diskGet, alLookup]
    · simp only [diskAppend, if_neg h1, diskGet, alLookup, if_neg h1]
      exact ih

theorem diskGet_diskAppend_ne (d : Disk) (t t' : Nat) (c : Command) (h : t' ≠ t) :
    diskGet (diskAppend d t c) t' = diskGet d t' := by
  induction d with
  | nil =>
    show alLookup [(t, [c])] t' = alLookup [] t'
    rw [alLookup_cons, if_neg (fun hh : t = t' => h hh.symm)]
  | cons f rest ih =>
    by_cases h1 : f.1 = t
    · have hne : ¬ f.1 = t' := fun hh => h ((hh ▸ h1 : t' = t) ▸ rfl)
      show alLookup (if f.1 = t then (f.1, f.2 ++ [c]) :: rest else _) t' = _
      rw [if_pos h1, alLookup_cons, if_neg hne]
      show alLookup rest t' = alLookup (f :: rest) t'
      rw [alLookup_cons, if_neg hne]
    · show alLookup (if f.1 = t then _ else f :: diskAppend rest t c) t' = _
      rw [if_neg h1, alLookup_cons]
      by_cases h2 : f.1 = t'
      · rw [if_pos h2]
        show _ = alLookup (f :: rest) t'
        rw [alLookup_cons, if_pos h2]
      · rw [if_neg h2]
        show diskGet (diskAppend rest t c) t' = _
        rw [ih]
        show alLookup rest t' = alLookup (f :: rest) t'
        rw [alLookup_cons, if_neg h2]

theorem mem_diskAppend (d : Disk) (t : Nat) (c : Command) (e : Nat × LogFile)
    (hm : e ∈ diskAppend d t c) : (e ∈ d ∧ e.1 ≠ t) ∨ e.1 = t := by
  induction d with
  | nil =>
    simp only [diskAppend, List.mem_singleton] at hm
    exact Or.inr (by rw [hm])
  | cons f rest ih =>
    by_cases h1 : f.1 = t
    · simp only [diskAppend, if_pos h1, List.mem_cons] at hm
      rcases hm with h | h
      · exact Or.inr (by rw [h]; exact h1)
      · by_cases h2 : e.1 = t
        · exact Or.inr h2
        · exact Or.inl ⟨List.mem_cons_of_mem _ h, h2⟩
    · simp only [diskAppend, if_neg h1, List.mem_cons] at hm
      rcases hm with h | h
      · exact Or.inl ⟨h ▸ List.mem_cons_self _ _, h ▸ h1⟩
      · rcases ih h with h' | h'
        · exact Or.inl ⟨List.mem_cons_of_mem _ h'.1, h'.2⟩
        · exact Or.inr h'

theorem diskAppend_region (d : Disk) (t : Nat) (c : Command) :
    ∀ l1 f l2, d = l1 ++ (t, f) :: l2 → (∀ e ∈ l1, e.1 ≠ t) →
    diskAppend d t c = l1 ++ (t, f ++ [c]) :: l2 := by
  induction d with
  | nil =>
    intro l1 f l2 hd
    exact absurd hd (by simp)
  | cons g rest ih =>
    intro l1 f l2 hd hl1
    cases l1 with
    | nil =>
      simp only [List.nil_append] at hd ⊢
      cases hd
      simp [diskAppend]
    | cons g1 l1' =>
      simp only [List.cons_append, List.cons.injEq] at hd
      rcases hd with ⟨hg, hrest⟩
      subst hg
      have hne : g.1 ≠ t := hl1 g (List.mem_cons_self _ _)
      simp only [diskAppend, if_neg hne, List.cons_append]
      rw [ih l1' f l2 hrest (fun e he => hl1 e (List.mem_cons_of_mem _ he))]

theorem diskGet_diskCreate_fresh (d : Disk) (t : Nat) (h : diskGet d t = none) :
    diskGet (diskCreate d t) t = some [] := by
  rw [diskCreate, h]
  exact alLookup_alInsert_self d t []

theorem diskGet_diskCreate_ne (d : Disk) (t t' : Nat) (h : t' ≠ t) :
    diskGet (diskCreate d t) t' = diskGet d t' := by
  rw [diskCreate]
  cases hd : diskGet d t with
  | some f => rfl
  | none => exact alLookup_alInsert_ne d t t' [] h

theorem diskCreate_of_fresh_max (d : Disk) (t : Nat) (h : ∀ e ∈ d, e.1 < t) :
    diskCreate d t = d ++ [(t, [])] := by
  have hn : diskGet d t = none :=
    (alLookup_none_iff_forall d t).mpr (fun e he => ne_of_lt (h e he))
  rw [diskCreate, hn]
  exact alInsert_append_of_gt d t [] h

/-! ### Lemmas about record scanning -/

theorem findRecord_encLen (f : LogFile) (off : Nat) (p : Pos) (c : Command)
    (h : findRecord f off p = some c) : encLen c = p.len := by
  induction f generalizing off with
  | nil => simp [findRecord] at h
  | cons c0 rest ih =>
    by_cases h1 : off = p.offset ∧ encLen c0 = p.len
    · rw [findRecord, if_pos h1] at h
      cases h
      exact h1.2
    · rw [findRecord, if_neg h1] at h
      exact ih _ h

theorem findRecord_extend (f g : LogFile) (off : Nat) (p : Pos) (c : Command)
    (h : findRecord f off p = some c) : findRecord (f ++ g) off p = some c := by
  induction f generalizing off with
  | nil => simp [findRecord] at h
  | cons c0 rest ih =>
    by_cases h1 : off = p.offset ∧ encLen c0 = p.len
    · rw [findRecord, if_pos h1] at h
      rw [List.cons_append, findRecord, if_pos h1]
      exact h
    · rw [findRecord, if_neg h1] at h
      rw [List.cons_append, findRecord, if_neg h1]
      exact ih _ h

theorem findRecord_snoc (f : LogFile) (c : Command) (off : Nat) (p : Pos)
    (hoff : p.offset = off + fileBytes f) (hlen : p.len = encLen c) :
    findRecord (f ++ [c]) off p = some c := by
  induction f generalizing off with
  | nil =>
    simp only [fileBytes, List.map_nil, List.sum_nil, Nat.add_zero] at hoff
    rw [List.nil_append, findRecord, if_pos ⟨hoff.symm, hlen.symm⟩]
  | cons c0 rest ih =>
    have hlt : off < p.offset := by
      rw [hoff, fileBytes, List.map_cons, List.sum_cons]
      have := encLen_pos c0
      omega
    rw [List.cons_append, findRecord, if_neg (fun hh => absurd hh.1 (ne_of_lt hlt))]
    apply ih
    rw [hoff, fileBytes, fileBytes, List.map_cons, List.sum_cons]
    omega

theorem mem_positionedRecords_offset_le (t : Nat) (f : LogFile) (off : Nat)
    (r : Pos × Command) (hm : r ∈ positionedRecords t f off) : off ≤ r.1.offset := by
  induction f generalizing off with
  | nil => simp [positionedRecords] at hm
  | cons c rest ih =>
    rw [positionedRecords] at hm
    rcases List.mem_cons.mp hm with h | h
    · rw [h]
    · have := ih (off + encLen c) h
      omega

theorem findRecord_of_mem_positionedRecords (t : Nat) (f : LogFile) (off : Nat)
    (p : Pos) (c : Command) (hm : (p, c) ∈ positionedRecords t f off) :
    findRecord f off p = some c := by
  induction f generalizing off with
  | nil => simp [positionedRecords] at hm
  | cons c0 rest ih =>
    rw [positionedRecords] at hm
    rcases List.mem_cons.mp hm with h | h
    · obtain ⟨hp, hc⟩ := Prod.mk.injEq .. |>.mp h
      subst hp
      subst hc
      rw [findRecord, if_pos ⟨rfl, rfl⟩]
    · have h2 : off + encLen c0 ≤ p.offset :=
        mem_positionedRecords_offset_le t rest (off + encLen c0) (p, c) h
      have h3 := encLen_pos c0
      rw [findRecord, if_neg (fun hh => by omega)]
      exact ih _ h

theorem mem_positionedRecords_term (t : Nat) (f : LogFile) (off : Nat)
    (r : Pos × Command) (hm : r ∈ positionedRecords t f off) : r.1.term = t := by
  induction f generalizing off with
  | nil => simp [positionedRecords] at hm
  | cons c rest ih =>
    rw [positionedRecords] at hm
    rcases List.mem_cons.mp hm with h | h
    · rw [h]
    · exact ih _ h

/-! ### Lemmas about recovery -/

theorem loadFileAux_eq_foldl (t : Nat) (f : LogFile) :
    ∀ (off : Nat) (ix : Index) (u : Nat),
    loadFileAux t f off ix u =
      (positionedRecords t f off).foldl recoveryStep (ix, u) := by
  induction f with
  | nil => intro off ix u; rfl
  | cons c rest ih =>
    intro off ix u
    cases c with
    | set k v =>
      rw [loadFileAux, positionedRecords, List.foldl_cons, ih]
      rfl
    | remove k =>
      rw [loadFileAux, positionedRecords, List.foldl_cons, ih]
      have hsub : off + encLen (Command.remove k) - off = encLen (Command.remove k) := by
        omega
      rw [hsub]
      rfl

theorem allRecords_cons (f : Nat × LogFile) (rest : Disk) :
    allRecords (f :: rest) = positionedRecords f.1 f.2 0 ++ allRecords rest := rfl

theorem loadFold_eq_foldl (d : Disk) :
    ∀ st : Index × Nat,
    d.foldl (fun st f => load f.1 f.2 st) st = (allRecords d).foldl recoveryStep st := by
  induction d with
  | nil => intro st; rfl
  | cons f rest ih =>
    intro st
    rw [List.foldl_cons, allRecords_cons, List.foldl_append, ih]
    rw [load, loadFileAux_eq_foldl]

theorem mem_insertByTerm (f : Nat × LogFile) (l : Disk) (e : Nat × LogFile)
    (hm : e ∈ insertByTerm f l) : e = f ∨ e ∈ l := by
  induction l with
  | nil =>
    rcases List.mem_singleton.mp hm with h
    exact Or.inl h
  | cons g rest ih =>
    rw [insertByTerm] at hm
    by_cases h1 : f.1 ≤ g.1
    · rw [if_pos h1] at hm
      rcases List.mem_cons.mp hm with h | h
      · exact Or.inl h
      · exact Or.inr h
    · rw [if_neg h1] at hm
      rcases List.mem_cons.mp hm with h | h
      · exact Or.inr (h ▸ List.mem_cons_self _ _)
      · rcases ih h with h' | h'
        · exact Or.inl h'
        · exact Or.inr (List.mem_cons_of_mem _ h')

theorem insertByTerm_sorted (f : Nat × LogFile) (l : Disk)
    (hs : l.Pairwise (fun a b => a.1 ≤ b.1)) :
    (insertByTerm f l).Pairwise (fun a b => a.1 ≤ b.1) := by
  induction l with
  | nil => simp [insertByTerm]
  | cons g rest ih =>
    rcases List.pairwise_cons.mp hs with ⟨hrel, hrest⟩
    rw [insertByTerm]
    by_cases h1 : f.1 ≤ g.1
    · rw [if_pos h1]
      refine List.pairwise_cons.mpr ⟨?_, hs⟩
      intro b hb
      rcases List.mem_cons.mp hb with h | h
      · exact h ▸ h1
      · exact h1.trans (hrel b h)
    · rw [if_neg h1]
      refine List.pairwise_cons.mpr ⟨?_, ih hrest⟩
      intro b hb
      rcases mem_insertByTerm f rest b hb with h | h
      · exact h ▸ le_of_lt (lt_of_not_le h1)
      · exact hrel b h

theorem sorted_terms_sorted (d : Disk) :
    (sorted_terms d).Pairwise (fun a b => a.1 ≤ b.1) := by
  induction d with
  | nil => simp [sorted_terms]
  | cons f rest ih =>
    show (insertByTerm f (sorted_terms rest)).Pairwise _
    exact insertByTerm_sorted f (sorted_terms rest) ih

theorem sorted_terms_eq_self (d : Disk) (hs : KeySorted d) : sorted_terms d = d := by
  induction d with
  | nil => rfl
  | cons f rest ih =>
    rcases List.pairwise_cons.mp hs with ⟨hrel, hrest⟩
    show insertByTerm f (sorted_terms rest) = f :: rest
    rw [ih hrest]
    cases rest with
    | nil => rfl
    | cons g rs =>
      rw [insertByTerm, if_pos (le_of_lt (hrel g (List.mem_cons_self _ _)))]

/-! ### Lemmas about the reader cache -/

theorem close_stale_eq_filter (sp : Nat) (cache : List Nat)
    (hs : cache.Pairwise (· < ·)) :
    close_stale_handles sp cache = cache.filter (fun u => decide (sp ≤ u)) := by
  induction cache with
  | nil => rfl
  | cons t rest ih =>
    rcases List.pairwise_cons.mp hs with ⟨hrel, hrest⟩
    by_cases h1 : sp ≤ t
    · rw [close_stale_handles, if_pos h1,
        @List.filter_cons_of_pos Nat (fun u => decide (sp ≤ u)) t rest (decide_eq_true h1)]
      congr 1
      symm
      rw [List.filter_eq_self]
      intro u hu
      exact decide_eq_true (h1.trans (le_of_lt (hrel u hu)))
    · rw [close_stale_handles, if_neg h1,
        @List.filter_cons_of_neg Nat (fun u => decide (sp ≤ u)) t rest (by simpa using h1)]
      exact ih hrest

theorem mem_cacheAdd (c : List Nat) (t u : Nat) :
    u ∈ cacheAdd c t ↔ u ∈ c ∨ u = t := by
  induction c with
  | nil => simp [cacheAdd]
  | cons w rest ih =>
    rw [cacheAdd]
    by_cases h1 : t < w
    · rw [if_pos h1]
      simp only [List.mem_cons]
      tauto
    · rw [if_neg h1]
      by_cases h2 : t = w
      · rw [if_pos h2]
        simp only [List.mem_cons]
        constructor
        · intro h
          exact Or.inl h
        · rintro (h | h)
          · exact h
          · exact Or.inl (h.trans h2)
      · rw [if_neg h2]
        simp only [List.mem_cons, ih]
        tauto

/-! ### Lemmas about the compaction loop -/

theorem compactLoop_term_eq (ct : Nat) :
    ∀ (entries : Index) (disk : Disk) (ix : Index) (off : Nat),
    KeySorted ix →
    (∀ e ∈ ix, e.2.term = ct ∨ e ∈ entries) →
    ∀ {u : Unit} {disk' : Disk} {ix' : Index} {off' : Nat},
    compactLoop ct entries disk ix off = (.ok u, disk', ix', off') →
    ∀ e ∈ ix', e.2.term = ct := by
  intro entries
  induction entries with
  | nil =>
    intro disk ix off hs hyp u disk' ix' off' h e he
    simp only [compactLoop, Prod.mk.injEq] at h
    obtain ⟨-, -, h3, -⟩ := h
    subst h3
    rcases hyp e he with h' | h'
    · exact h'
    · exact absurd h' (List.not_mem_nil _)
  | cons e0 rest ih =>
    obtain ⟨k, p⟩ := e0
    intro disk ix off hs hyp u disk' ix' off' h e he
    cases hrc : readCmd disk p with
    | error er =>
      simp only [compactLoop, hrc, Prod.mk.injEq] at h
      exact absurd h.1 (by simp)
    | ok c =>
      simp only [compactLoop, hrc] at h
      refine ih (diskAppend disk ct c)
        (alInsert ix k { term := ct, offset := off, len := p.len }) (off + p.len)
        (keySorted_alInsert ix k _ hs) ?_ h e he
      intro f hf
      rcases mem_alInsert ix k _ f hs hf with h' | h'
      · left
        rw [h']
      · rcases hyp f h'.1 with h'' | h''
        · exact Or.inl h''
        · rcases List.mem_cons.mp h'' with h3 | h3
          · exact absurd (by rw [h3]) h'.2
          · exact Or.inr h3

/-! ### Claim theorems (part 1) -/

/-- Claim C3: when `compact` runs with writer state `current_term = t`,
it allocates `t + 1` as the compaction-output term and `t + 2` as the
new append term (`current_term` becomes `t + 2`), and on success every
position stored in the key index has term `t + 1` and the uncompacted
counter is 0. -/
theorem c3_compaction_postcondition (s s' : KvState) (u : Unit)
    (hs : KeySorted s.index) (h : compact s = (.ok u, s')) :
    s'.current_term = s.current_term + 2 ∧
    s'.uncompacted = 0 ∧
    s'.safe_point = s.current_term + 1 ∧
    ∀ e ∈ s'.index, e.2.term = s.current_term + 1 := by
  rcases hloop : compactLoop (s.current_term + 1) s.index
      (diskCreate (diskCreate s.disk (s.current_term + 1)) (s.current_term + 2))
      s.index 0 with ⟨r, disk1, ix1, off1⟩
  cases r with
  | error e =>
    rw [compact] at h
    rw [hloop] at h
    exact absurd (congrArg Prod.fst h) (by simp)
  | ok v =>
    rw [compact] at h
    rw [hloop] at h
    obtain ⟨-, h2⟩ := Prod.mk.injEq .. |>.mp h
    subst h2
    refine ⟨rfl, rfl, rfl, ?_⟩
    exact compactLoop_term_eq _ s.index _ s.index 0 hs (fun e he => Or.inr he) hloop

/-- Concrete single-key state used to exercise `compact`. -/
def c3state : KvState := (wSet (openStore []) "a" "1").2

/-- Witness for C3 at a concrete state. -/
theorem c3_compaction_postcondition_witness :
    (compact c3state).2.current_term = c3state.current_term + 2 ∧
    (compact c3state).2.uncompacted = 0 ∧
    (compact c3state).2.safe_point = c3state.current_term + 1 ∧
    ∀ e ∈ (compact c3state).2.index, e.2.term = c3state.current_term + 1 :=
  c3_compaction_postcondition c3state (compact c3state).2 () (by decide) rfl

/-- Claim C9: before every read through a reader view, every cached
handle with term strictly below the observed safe point is evicted
and handles at or above it are retained (the eviction loop computes
exactly the filter by `safe_point ≤ term`); hence at the moment the
read is performed — after the requested term, itself at or above the
safe point, is cached — the cache holds no term below the safe
point. -/
theorem c9_reader_cache_eviction (sp t : Nat) (cache : List Nat)
    (hs : cache.Pairwise (· < ·)) (ht : sp ≤ t) :
    close_stale_handles sp cache = cache.filter (fun u => decide (sp ≤ u)) ∧
    ∀ u ∈ readAndCache sp cache t, sp ≤ u := by
  refine ⟨close_stale_eq_filter sp cache hs, ?_⟩
  intro u hu
  rcases (mem_cacheAdd _ t u).mp hu with h | h
  · rw [close_stale_eq_filter sp cache hs] at h
    have := List.of_mem_filter h
    simpa using this
  · exact h ▸ ht

/-- Witness for C9 at a concrete cache. -/
theorem c9_reader_cache_eviction_witness :
    close_stale_handles 3 [1, 2, 3, 5] = [1, 2, 3, 5].filter (fun u => decide (3 ≤ u)) ∧
    ∀ u ∈ readAndCache 3 [1, 2, 3, 5] 4, 3 ≤ u :=
  c9_reader_cache_eviction 3 4 [1, 2, 3, 5] (by decide) (by decide)

/-- Claim C7: recovery processes terms in ascending order and records
within each term sequentially, and the whole replay is the left fold
of the claim's per-record step (`Set`: insert/replace the position,
counting a displaced predecessor; `Remove`: drop the key, counting
both the predecessor and the record itself) over the positioned
records of the directory. -/
theorem c7_recovery_accounting (d : Disk) :
    (sorted_terms d).Pairwise (fun f g => f.1 ≤ g.1) ∧
    ∀ st : Index × Nat,
      (sorted_terms d).foldl (fun st f => load f.1 f.2 st) st =
        (allRecords (sorted_terms d)).foldl recoveryStep st :=
  ⟨sorted_terms_sorted d, loadFold_eq_foldl (sorted_terms d)⟩

/-- Claim C8: `get` returns `Ok(None)` exactly when the key is absent
from the index; when present, a decoded `Set` yields its value, a
decoded non-`Set` record fails with `UnexpectedCommandType`, and read
or decoding failures surface as errors. -/
theorem c8_get_error_discrimination (s : KvState) (k : String) :
    (get s k = .ok none ↔ alLookup s.index k = none) ∧
    (∀ p, alLookup s.index k = some p →
      (∀ k' v, readCmd s.disk p = .ok (Command.set k' v) → get s k = .ok (some v)) ∧
      (∀ k', readCmd s.disk p = .ok (Command.remove k') →
        get s k = .error .unexpectedCommandType) ∧
      (∀ e, readCmd s.disk p = .error e → get s k = .error e)) := by
  constructor
  · cases hl : alLookup s.index k with
    | none => simp [get, hl]
    | some p =>
      simp only [get, hl]
      cases hr : readCmd s.disk p with
      | error e => simp
      | ok c => cases c <;> simp
  · intro p hp
    refine ⟨?_, ?_, ?_⟩
    · intro k' v h
      simp [get, hp, h]
    · intro k' h
      simp [get, hp, h]
    · intro e h
      simp [get, hp, h]

/-- Witness for C8: the three read outcomes at concrete states. -/
theorem c8_get_error_discrimination_witness :
    get c3state "a" = .ok (some "1") ∧ get c3state "b" = .ok none :=
  ⟨((c8_get_error_discrimination c3state "a").2 { term := 1, offset := 0, len := 31 }
      rfl).1 "a" "1" rfl,
   (c8_get_error_discrimination c3state "b").1.mpr rfl⟩

/-- Concrete state with the dead-byte counter above the compaction
threshold and key `"a"` still present. -/
def c5state : KvState :=
  { disk := [(1, [Command.set "a" "1"])],
    index := [("a", { term := 1, offset := 0, len := 31 })],
    current_term := 1,
    uncompacted := COMPACTION_THRESHOLD + 1,
    safe_point := 0 }

/-- Claim C5 is violated by the code: `KvsWriter::remove` checks the
compaction threshold only on the key-absent branch, so a successful
`remove` returns with the counter still above the threshold and no
compaction performed (terms and safe point unchanged). -/
theorem c5_remove_success_does_not_compact :
    (wRemove c5state "a").1 = .ok () ∧
    COMPACTION_THRESHOLD < c5state.uncompacted ∧
    COMPACTION_THRESHOLD < (wRemove c5state "a").2.uncompacted ∧
    (wRemove c5state "a").2.current_term = c5state.current_term ∧
    (wRemove c5state "a").2.safe_point = c5state.safe_point ∧
    (wRemove c5state "a").2.disk =
      [(1, [Command.set "a" "1", Command.remove "a"])] :=
  ⟨rfl, by decide, by decide, rfl, rfl, rfl⟩

/-- Concrete state with the dead-byte counter above the compaction
threshold and key `"b"` absent. -/
def c6state : KvState :=
  { disk := [(1, [Command.set "a" "1"])],
    index := [("a", { term := 1, offset := 0, len := 31 })],
    current_term := 1,
    uncompacted := COMPACTION_THRESHOLD + 1,
    safe_point := 0 }

/-- Claim C6 is violated by the code: `remove` of an absent key does
fail with `KeyNotFound` and writes no `Remove` record, but when the
dead-byte counter exceeds the threshold the key-absent branch runs
compaction, so the engine state changes (terms advance, the counter
resets, files are rewritten). -/
theorem c6_remove_absent_changes_state :
    (wRemove c6state "b").1 = .error .keyNotFound ∧
    (∀ f ∈ (wRemove c6state "b").2.disk, ∀ c ∈ f.2, c ≠ Command.remove "b") ∧
    (wRemove c6state "b").2.current_term = 3 ∧
    c6state.current_term = 1 ∧
    (wRemove c6state "b").2.uncompacted = 0 ∧
    COMPACTION_THRESHOLD < c6state.uncompacted :=
  ⟨rfl, by decide, rfl, rfl, by decide, by decide⟩

/-! ### Byte accounting lemmas -/

theorem liveBytes_cons (e : String × Pos) (ix : Index) :
    liveBytes (e :: ix) = e.2.len + liveBytes ix := by
  simp [liveBytes]

theorem liveBytes_alInsert (ix : Index) (k : String) (q : Pos) (hs : KeySorted ix) :
    liveBytes (alInsert ix k q) +
      (match alLookup ix k with | some p => p.len | none => 0) =
    liveBytes ix + q.len := by
  induction ix with
  | nil => simp [alInsert, alLookup, liveBytes]
  | cons e rest ih =>
    rcases List.pairwise_cons.mp hs with ⟨hrel, hrest⟩
    by_cases h2 : k = e.1
    · rw [alInsert_cons, if_pos h2, alLookup_cons, if_pos h2.symm,
        liveBytes_cons, liveBytes_cons]
      show q.len + liveBytes rest + e.2.len = e.2.len + liveBytes rest + q.len
      omega
    · have h2' : ¬ e.1 = k := fun hh => h2 hh.symm
      rw [alInsert_cons, if_neg h2, alLookup_cons, if_neg h2']
      by_cases h1 : k < e.1
      · have hnone : alLookup rest k = none :=
          alLookup_eq_none_of_forall_ne rest k
            (fun f hf hh => absurd (hh ▸ (h1.trans (hrel f hf))) (lt_irrefl _))
        rw [if_pos h1, liveBytes_cons, liveBytes_cons, hnone]
        show q.len + (e.2.len + liveBytes rest) + 0 = e.2.len + liveBytes rest + q.len
        omega
      · rw [if_neg h1, liveBytes_cons, liveBytes_cons]
        have := ih hrest
        omega

theorem liveBytes_alErase (ix : Index) (k : String) :
    liveBytes ix =
      liveBytes (alErase ix k) +
        (match alLookup ix k with | some p => p.len | none => 0) := by
  induction ix with
  | nil => simp [alErase, alLookup, liveBytes]
  | cons e rest ih =>
    rw [alErase_cons, alLookup_cons]
    by_cases h1 : e.1 = k
    · rw [if_pos h1, if_pos h1, liveBytes_cons]
      show e.2.len + liveBytes rest = liveBytes rest + e.2.len
      omega
    · rw [if_neg h1, if_neg h1, liveBytes_cons, liveBytes_cons]
      omega

theorem setBytes_cons (f : Nat × LogFile) (rest : Disk) :
    setBytes (f :: rest) = (f.2.map cmdSetBytes).sum + setBytes rest := by
  simp [setBytes]

theorem setBytes_append (d1 d2 : Disk) :
    setBytes (d1 ++ d2) = setBytes d1 + setBytes d2 := by
  simp [setBytes]

theorem setBytesFile_append (f g : LogFile) :
    ((f ++ g).map cmdSetBytes).sum = (f.map cmdSetBytes).sum + (g.map cmdSetBytes).sum := by
  simp

theorem setBytes_diskAppend (d : Disk) (t : Nat) (c : Command) :
    setBytes (diskAppend d t c) = setBytes d + cmdSetBytes c := by
  induction d with
  | nil => simp [diskAppend, setBytes]
  | cons f rest ih =>
    rw [diskAppend]
    by_cases h1 : f.1 = t
    · rw [if_pos h1, setBytes_cons, setBytes_cons, setBytesFile_append]
      simp [cmdSetBytes]
      omega
    · rw [if_neg h1, setBytes_cons, setBytes_cons, ih]
      omega

theorem setBytes_alInsert_nil (d : Disk) (t : Nat) (hfresh : diskGet d t = none) :
    setBytes (alInsert d t []) = setBytes d := by
  induction d with
  | nil => simp [alInsert, setBytes]
  | cons f rest ih =>
    rw [show diskGet (f :: rest) t = if f.1 = t then some f.2 else diskGet rest t
        from rfl] at hfresh
    by_cases hft : f.1 = t
    · rw [if_pos hft] at hfresh
      exact absurd hfresh (by simp)
    · rw [if_neg hft] at hfresh
      rw [alInsert_cons, if_neg (fun hh => hft hh.symm)]
      by_cases h1 : t < f.1
      · rw [if_pos h1, setBytes_cons]
        simp
      · rw [if_neg h1, setBytes_cons, setBytes_cons, ih hfresh]

theorem setBytes_diskCreate (d : Disk) (t : Nat) :
    setBytes (diskCreate d t) = setBytes d := by
  rw [diskCreate]
  cases hd : diskGet d t with
  | some f => rfl
  | none =>
    show setBytes (alInsert d t []) = setBytes d
    exact setBytes_alInsert_nil d t hd

theorem recsMatch_setBytes (es : Index) (recs : List Command)
    (h : recsMatch es recs) : (recs.map cmdSetBytes).sum = liveBytes es := by
  induction es generalizing recs with
  | nil =>
    cases recs with
    | nil => simp [liveBytes]
    | cons c cs => exact absurd h (by simp [recsMatch])
  | cons e rest ih =>
    obtain ⟨k, p⟩ := e
    cases recs with
    | nil => exact absurd h (by simp [recsMatch])
    | cons c cs =>
      obtain ⟨⟨v, hv⟩, henc, hm⟩ := h
      rw [List.map_cons, List.sum_cons, liveBytes_cons, ih cs hm, hv]
      rw [hv] at henc
      simp only [cmdSetBytes]
      omega

/-! ### Read transfer lemmas -/

theorem readCmd_congr (d1 d2 : Disk) (p : Pos)
    (h : diskGet d1 p.term = diskGet d2 p.term) : readCmd d1 p = readCmd d2 p := by
  rw [readCmd, readCmd, h]

theorem readCmd_eq_of_parts (d : Disk) (p : Pos) (f : LogFile)
    (hg : diskGet d p.term = some f) :
    readCmd d p =
      (match findRecord f 0 p with
       | none => Except.error KvsError.serdeJson
       | some c => Except.ok c) := by
  rw [readCmd, hg]

theorem readCmd_eq_of_none (d : Disk) (p : Pos)
    (hg : diskGet d p.term = none) : readCmd d p = .error .io := by
  rw [readCmd, hg]

theorem readCmd_eq_ok_iff (d : Disk) (p : Pos) (c : Command) :
    readCmd d p = .ok c ↔
      ∃ f, diskGet d p.term = some f ∧ findRecord f 0 p = some c := by
  constructor
  · intro h
    cases hg : diskGet d p.term with
    | none => rw [readCmd_eq_of_none d p hg] at h; exact absurd h (by simp)
    | some f =>
      rw [readCmd_eq_of_parts d p f hg] at h
      cases hf : findRecord f 0 p with
      | none => rw [hf] at h; exact absurd h (by simp)
      | some c0 =>
        rw [hf] at h
        obtain rfl : c0 = c := by simpa using h
        exact ⟨f, rfl, hf⟩
  · rintro ⟨f, hg, hf⟩
    rw [readCmd_eq_of_parts d p f hg, hf]

theorem readCmd_ok_encLen (d : Disk) (p : Pos) (c : Command)
    (h : readCmd d p = .ok c) : encLen c = p.len := by
  obtain ⟨f, hg, hf⟩ := (readCmd_eq_ok_iff d p c).mp h
  exact findRecord_encLen f 0 p c hf

theorem readCmd_diskAppend_ne (d : Disk) (t : Nat) (c : Command) (p : Pos)
    (h : p.term ≠ t) : readCmd (diskAppend d t c) p = readCmd d p :=
  readCmd_congr _ _ _ (diskGet_diskAppend_ne d t p.term c h)

theorem readCmd_diskAppend_ok (d : Disk) (t : Nat) (c c0 : Command) (p : Pos)
    (h : readCmd d p = .ok c0) : readCmd (diskAppend d t c) p = .ok c0 := by
  obtain ⟨f, hg, hf⟩ := (readCmd_eq_ok_iff d p c0).mp h
  by_cases ht : p.term = t
  · subst ht
    refine (readCmd_eq_ok_iff _ p c0).mpr ⟨f ++ [c], ?_, findRecord_extend f [c] 0 p c0 hf⟩
    rw [diskGet_diskAppend_self, hg]
    rfl
  · refine (readCmd_eq_ok_iff _ p c0).mpr ⟨f, ?_, hf⟩
    rw [diskGet_diskAppend_ne d t p.term c ht, hg]

theorem readCmd_diskCreate_ok (d : Disk) (t : Nat) (c0 : Command) (p : Pos)
    (h : readCmd d p = .ok c0) : readCmd (diskCreate d t) p = .ok c0 := by
  obtain ⟨f, hg, hf⟩ := (readCmd_eq_ok_iff d p c0).mp h
  by_cases ht : p.term = t
  · subst ht
    refine (readCmd_eq_ok_iff _ p c0).mpr ⟨f, ?_, hf⟩
    rw [diskCreate, hg]
    exact hg
  · refine (readCmd_eq_ok_iff _ p c0).mpr ⟨f, ?_, hf⟩
    rw [diskGet_diskCreate_ne d t p.term ht]
    exact hg

theorem readCmd_diskAppend_fresh (d : Disk) (t : Nat) (c : Command) (f : LogFile)
    (hf : diskGet d t = some f) :
    readCmd (diskAppend d t c) { term := t, offset := fileBytes f, len := encLen c } =
      .ok c := by
  refine (readCmd_eq_ok_iff _ _ c).mpr ⟨f ++ [c], ?_, ?_⟩
  · rw [diskGet_diskAppend_self, hf]
    rfl
  · exact findRecord_snoc f c 0 _ (by simp) rfl

/-! ### Lemmas about new compaction positions -/

theorem newPoss_cons (ct : Nat) (k : String) (p : Pos) (rest : Index) (off : Nat) :
    newPoss ct ((k, p) :: rest) off =
      (k, { term := ct, offset := off, len := p.len }) :: newPoss ct rest (off + p.len) :=
  rfl

theorem alLookup_newPoss_none_iff (ct : Nat) (es : Index) (off : Nat) (k : String) :
    ∀ {off0 : Nat}, (alLookup (newPoss ct es off0) k = none ↔ alLookup es k = none) := by
  induction es with
  | nil => intro off0; simp [newPoss, alLookup]
  | cons e rest ih =>
    intro off0
    obtain ⟨k0, p0⟩ := e
    rw [newPoss_cons, alLookup_cons, alLookup_cons]
    by_cases h : k0 = k
    · simp [h]
    · simp only [if_neg h]
      exact ih

theorem alLookup_newPoss_some (ct : Nat) (es : Index) (k : String) (q : Pos) :
    ∀ (off0 : Nat), alLookup (newPoss ct es off0) k = some q →
    q.term = ct ∧ ∃ p, alLookup es k = some p ∧ q.len = p.len := by
  induction es with
  | nil => intro off0 h; simp [newPoss, alLookup] at h
  | cons e rest ih =>
    intro off0 h
    obtain ⟨k0, p0⟩ := e
    rw [newPoss_cons, alLookup_cons] at h
    by_cases hk : k0 = k
    · rw [if_pos hk] at h
      obtain rfl : ({ term := ct, offset := off0, len := p0.len } : Pos) = q := by
        simpa using h
      refine ⟨rfl, p0, ?_, rfl⟩
      rw [alLookup_cons, if_pos hk]
    · rw [if_neg hk] at h
      obtain ⟨h1, p, h2, h3⟩ := ih _ h
      refine ⟨h1, p, ?_, h3⟩
      rw [alLookup_cons, if_neg hk]
      exact h2

/-! ### Sortedness transfer for the disk -/

theorem keySorted_iff_pairwise_map (d : Disk) :
    KeySorted d ↔ (d.map (fun e => e.1)).Pairwise (· < ·) :=
  (List.pairwise_map).symm

theorem map_fst_diskAppend (d : Disk) (t : Nat) (c : Command)
    (h : (diskGet d t).isSome) :
    (diskAppend d t c).map (fun e => e.1) = d.map (fun e => e.1) := by
  induction d with
  | nil => simp [diskGet, alLookup] at h
  | cons f rest ih =>
    rw [diskAppend]
    by_cases hft : f.1 = t
    · rw [if_pos hft]
      simp
    · rw [if_neg hft, List.map_cons, List.map_cons]
      congr 1
      apply ih
      have hg : diskGet (f :: rest) t = diskGet rest t := by
        show alLookup (f :: rest) t = alLookup rest t
        rw [alLookup_cons, if_neg hft]
      rw [hg] at h
      exact h

theorem keySorted_diskAppend (d : Disk) (t : Nat) (c : Command)
    (hd : KeySorted d) (h : (diskGet d t).isSome) : KeySorted (diskAppend d t c) := by
  rw [keySorted_iff_pairwise_map, map_fst_diskAppend d t c h,
    ← keySorted_iff_pairwise_map]
  exact hd

/-! ### The compaction copy loop -/

theorem compactLoop_cons (ct : Nat) (k : String) (p : Pos) (rest : Index)
    (disk : Disk) (ix : Index) (off : Nat) :
    compactLoop ct ((k, p) :: rest) disk ix off =
      match readCmd disk p with
      | .error e => (.error e, disk, ix, off)
      | .ok c =>
        compactLoop ct rest (diskAppend disk ct c)
          (alInsert ix k { term := ct, offset := off, len := p.len }) (off + p.len) :=
  rfl

theorem compactLoop_main (ct : Nat) :
    ∀ (entries : Index) (disk : Disk) (ix : Index) (off : Nat) (f0 : LogFile),
    KeySorted entries →
    (∀ e ∈ entries, e.2.term ≠ ct) →
    (∀ e ∈ entries, ∃ v, readCmd disk e.2 = .ok (Command.set e.1 v)) →
    KeySorted ix →
    (∀ e ∈ entries, alLookup ix e.1 = some e.2) →
    diskGet disk ct = some f0 →
    fileBytes f0 = off →
    ∃ disk' ix' off' recs,
      compactLoop ct entries disk ix off = (.ok (), disk', ix', off') ∧
      (∀ t, t ≠ ct → diskGet disk' t = diskGet disk t) ∧
      diskGet disk' ct = some (f0 ++ recs) ∧
      recsMatch entries recs ∧
      (∀ k, alLookup ix' k =
        match alLookup (newPoss ct entries off) k with
        | some q => some q
        | none => alLookup ix k) ∧
      KeySorted ix' ∧
      liveBytes ix' = liveBytes ix ∧
      (∀ k q, alLookup (newPoss ct entries off) k = some q →
        ∃ v p, alLookup entries k = some p ∧
          readCmd disk p = .ok (Command.set k v) ∧
          readCmd disk' q = .ok (Command.set k v)) ∧
      (∀ l1 g0 l2, disk = l1 ++ (ct, g0) :: l2 → (∀ g ∈ l1, g.1 ≠ ct) →
        disk' = l1 ++ (ct, g0 ++ recs) :: l2) ∧
      (∀ g ∈ disk', g ∈ disk ∨ g.1 = ct) := by
  intro entries
  induction entries with
  | nil =>
    intro disk ix off f0 hse hfr hval hsi hlk hcur halign
    refine ⟨disk, ix, off, [], rfl, fun t ht => rfl, by rw [hcur, List.append_nil],
      trivial, ?_, hsi, rfl, ?_, ?_, fun g hg => Or.inl hg⟩
    · intro k
      rfl
    · intro k q h
      simp [newPoss, alLookup] at h
    · intro l1 g0 l2 hd hl1
      rw [hd, List.append_nil]
  | cons e0 rest ih =>
    obtain ⟨k, p⟩ := e0
    intro disk ix off f0 hse hfr hval hsi hlk hcur halign
    rcases List.pairwise_cons.mp hse with ⟨hrel, hrest⟩
    obtain ⟨v, hrc⟩ := hval (k, p) (List.mem_cons_self _ _)
    have henc : encLen (Command.set k v) = p.len := readCmd_ok_encLen disk p _ hrc
    have hne_ct : p.term ≠ ct := hfr (k, p) (List.mem_cons_self _ _)
    have hrestne : ∀ e ∈ rest, e.1 ≠ k :=
      fun e he hh => absurd (hh ▸ hrel e he) (lt_irrefl _)
    -- state after copying the head record
    have hcur1 : diskGet (diskAppend disk ct (Command.set k v)) ct =
        some (f0 ++ [Command.set k v]) := by
      rw [diskGet_diskAppend_self, hcur]
      rfl
    have halign1 : fileBytes (f0 ++ [Command.set k v]) = off + p.len := by
      rw [fileBytes, List.map_append, List.sum_append]
      show fileBytes f0 + (encLen (Command.set k v) + 0) = off + p.len
      rw [halign, henc]
      omega
    obtain ⟨disk', ix', off', recs', hloop, hother, hcur', hmatch, hlook', hsi',
        hlive, hvalid', hregion, hmem⟩ :=
      ih (diskAppend disk ct (Command.set k v))
        (alInsert ix k { term := ct, offset := off, len := p.len }) (off + p.len)
        (f0 ++ [Command.set k v]) hrest
        (fun e he => hfr e (List.mem_cons_of_mem _ he))
        (fun e he => by
          obtain ⟨w, hw⟩ := hval e (List.mem_cons_of_mem _ he)
          exact ⟨w, readCmd_diskAppend_ok disk ct _ _ e.2 hw⟩)
        (keySorted_alInsert ix k _ hsi)
        (fun e he => by
          rw [alLookup_alInsert_ne ix k e.1 _ (hrestne e he)]
          exact hlk e (List.mem_cons_of_mem _ he))
        hcur1 halign1
    refine ⟨disk', ix', off', Command.set k v :: recs', ?_, ?_, ?_, ?_, ?_, hsi',
      ?_, ?_, ?_, ?_⟩
    · rw [compactLoop_cons, hrc]
      exact hloop
    · intro t ht
      rw [hother t ht, diskGet_diskAppend_ne disk ct t _ ht]
    · rw [hcur']
      simp
    · exact ⟨⟨v, rfl⟩, henc, hmatch⟩
    · intro k'
      rw [hlook' k', newPoss_cons, alLookup_cons]
      by_cases hk : k = k'
      · subst hk
        rw [if_pos rfl]
        have hnone : alLookup (newPoss ct rest (off + p.len)) k = none :=
          (alLookup_newPoss_none_iff ct rest (off + p.len) k).mpr
            (alLookup_eq_none_of_forall_ne rest k (fun e he => hrestne e he))
        rw [hnone]
        show alLookup (alInsert ix k _) k = _
        rw [alLookup_alInsert_self]
      · rw [if_neg hk]
        cases hnp : alLookup (newPoss ct rest (off + p.len)) k' with
        | some q => rfl
        | none =>
          show alLookup (alInsert ix k _) k' = alLookup ix k'
          exact alLookup_alInsert_ne ix k k' _ (fun hh => hk hh.symm)
    · rw [hlive]
      have hlkk := hlk (k, p) (List.mem_cons_self _ _)
      have h2 : liveBytes (alInsert ix k { term := ct, offset := off, len := p.len })
          + p.len = liveBytes ix + p.len := by
        have h3 := liveBytes_alInsert ix k { term := ct, offset := off, len := p.len } hsi
        rw [hlkk] at h3
        exact h3
      show liveBytes (alInsert ix k { term := ct, offset := off, len := p.len }) = liveBytes ix
      omega
    · intro k' q hq
      rw [newPoss_cons, alLookup_cons] at hq
      by_cases hk : k = k'
      · subst hk
        rw [if_pos rfl] at hq
        obtain rfl : ({ term := ct, offset := off, len := p.len } : Pos) = q := by
          simpa using hq
        refine ⟨v, p, ?_, hrc, ?_⟩
        · rw [alLookup_cons, if_pos rfl]
        · refine (readCmd_eq_ok_iff _ _ _).mpr ⟨(f0 ++ [Command.set k v]) ++ recs', ?_, ?_⟩
          · exact hcur'
          · apply findRecord_extend
            apply findRecord_snoc
            · show off = 0 + fileBytes f0
              omega
            · exact henc.symm
      · rw [if_neg hk] at hq
        obtain ⟨w, p', hlk', hrd', hrd''⟩ := hvalid' k' q hq
        have hp'mem : (k', p') ∈ rest := mem_of_alLookup_eq_some rest k' p' hlk'
        have hp'ne : p'.term ≠ ct := hfr (k', p') (List.mem_cons_of_mem _ hp'mem)
        refine ⟨w, p', ?_, ?_, hrd''⟩
        · rw [alLookup_cons, if_neg hk]
          exact hlk'
        · rw [← readCmd_diskAppend_ne disk ct (Command.set k v) p' hp'ne]
          exact hrd'
    · intro l1 g0 l2 hd hl1
      have h1 : diskAppend disk ct (Command.set k v) = l1 ++ (ct, g0 ++ [Command.set k v]) :: l2 :=
        diskAppend_region disk ct (Command.set k v) l1 g0 l2 hd hl1
      have := hregion l1 (g0 ++ [Command.set k v]) l2 h1 hl1
      rw [this]
      simp
    · intro g hg
      rcases hmem g hg with h | h
      · rcases mem_diskAppend disk ct (Command.set k v) g h with h' | h'
        · exact Or.inl h'.1
        · exact Or.inr h'
      · exact Or.inr h

/-! ### Replay reconstruction lemmas -/

theorem loadFileAux_append (t : Nat) (f1 : LogFile) :
    ∀ (f2 : LogFile) (off : Nat) (ix : Index) (u : Nat),
    loadFileAux t (f1 ++ f2) off ix u =
      loadFileAux t f2 (off + fileBytes f1)
        (loadFileAux t f1 off ix u).1 (loadFileAux t f1 off ix u).2 := by
  induction f1 with
  | nil =>
    intro f2 off ix u
    show loadFileAux t f2 off ix u = loadFileAux t f2 (off + fileBytes []) ix u
    rw [show fileBytes [] = 0 from rfl, Nat.add_zero]
  | cons c f1' ih =>
    intro f2 off ix u
    have hb : off + fileBytes (c :: f1') = (off + encLen c) + fileBytes f1' := by
      rw [fileBytes, List.map_cons, List.sum_cons, fileBytes]
      omega
    cases c with
    | set k v =>
      rw [List.cons_append, loadFileAux, loadFileAux, ih, hb]
    | remove k =>
      rw [List.cons_append, loadFileAux, loadFileAux, ih, hb]

theorem disk_last_decomp (d : Disk) (t : Nat) (f : LogFile)
    (hs : KeySorted d) (hcur : diskGet d t = some f) (hmax : ∀ g ∈ d, g.1 ≤ t) :
    ∃ d1, d = d1 ++ [(t, f)] ∧ ∀ g ∈ d1, g.1 < t := by
  induction d with
  | nil => exact absurd hcur (by simp [diskGet, alLookup])
  | cons g rest ih =>
    rcases List.pairwise_cons.mp hs with ⟨hrel, hrest⟩
    by_cases hg : g.1 = t
    · have hgf : g.2 = f := by
        have : diskGet (g :: rest) t = some g.2 := by
          show alLookup (g :: rest) t = some g.2
          rw [alLookup_cons, if_pos hg]
        rw [this] at hcur
        simpa using hcur
      cases rest with
      | nil =>
        refine ⟨[], ?_, by simp⟩
        rw [List.nil_append]
        congr 1
        exact Prod.ext hg hgf
      | cons r rs =>
        have h1 := hrel r (List.mem_cons_self _ _)
        have h2 := hmax r (List.mem_cons_of_mem _ (List.mem_cons_self _ _))
        rw [hg] at h1
        omega
    · have hcur' : diskGet rest t = some f := by
        have : diskGet (g :: rest) t = diskGet rest t := by
          show alLookup (g :: rest) t = alLookup rest t
          rw [alLookup_cons, if_neg hg]
        rw [this] at hcur
        exact hcur
      obtain ⟨d1, hd1, hlt⟩ :=
        ih hrest hcur' (fun e he => hmax e (List.mem_cons_of_mem _ he))
      refine ⟨g :: d1, by rw [hd1, List.cons_append], ?_⟩
      intro e he
      rcases List.mem_cons.mp he with h | h
      · subst h
        exact lt_of_le_of_ne (hmax e (List.mem_cons_self _ _)) hg
      · exact hlt e h

theorem loadAllIndex_append_single (d1 : Disk) (t : Nat) (g : LogFile) :
    loadAllIndex (d1 ++ [(t, g)]) =
      (loadFileAux t g 0
        (loadAllIndex d1)
        (d1.foldl (fun st f => load f.1 f.2 st) ([], 0)).2).1 := by
  show ((d1 ++ [(t, g)]).foldl (fun st f => load f.1 f.2 st) ([], 0)).1 = _
  rw [List.foldl_append]
  rfl

theorem loadAllIndex_diskAppend (d : Disk) (t : Nat) (c : Command) (f : LogFile)
    (hs : KeySorted d) (hcur : diskGet d t = some f) (hmax : ∀ g ∈ d, g.1 ≤ t) :
    loadAllIndex (diskAppend d t c) =
      match c with
      | .set k _ =>
        alInsert (loadAllIndex d) k { term := t, offset := fileBytes f, len := encLen c }
      | .remove k => alErase (loadAllIndex d) k := by
  obtain ⟨d1, hd1, hlt⟩ := disk_last_decomp d t f hs hcur hmax
  have happ : diskAppend d t c = d1 ++ [(t, f ++ [c])] :=
    diskAppend_region d t c d1 f [] hd1 (fun e he => ne_of_lt (hlt e he))
  rw [happ, loadAllIndex_append_single, loadFileAux_append]
  rw [hd1, loadAllIndex_append_single]
  cases c with
  | set k v =>
    rw [loadFileAux]
    show alInsert (loadFileAux t f 0 _ _).1 k
        { term := t, offset := 0 + fileBytes f, len := encLen (Command.set k v) } = _
    rw [Nat.zero_add]
  | remove k =>
    rw [loadFileAux]
    show alErase (loadFileAux t f 0 _ _).1 k = _
    rfl

theorem recsMatch_load (ct : Nat) :
    ∀ (es : Index) (recs : List Command) (off : Nat) (ixL : Index) (u : Nat),
    KeySorted es →
    recsMatch es recs →
    ∀ k, alLookup (loadFileAux ct recs off ixL u).1 k =
      match alLookup (newPoss ct es off) k with
      | some q => some q
      | none => alLookup ixL k := by
  intro es
  induction es with
  | nil =>
    intro recs off ixL u hse hm k
    cases recs with
    | nil => rfl
    | cons c cs => exact absurd hm (by simp [recsMatch])
  | cons e rest ih =>
    obtain ⟨k0, p0⟩ := e
    intro recs off ixL u hse hm k
    rcases List.pairwise_cons.mp hse with ⟨hrel, hrest⟩
    cases recs with
    | nil => exact absurd hm (by simp [recsMatch])
    | cons c cs =>
      obtain ⟨⟨v, hv⟩, henc, hm'⟩ := hm
      subst hv
      rw [loadFileAux, henc, newPoss_cons, alLookup_cons]
      by_cases hk : k0 = k
      · subst hk
        rw [if_pos rfl]
        have hnone : alLookup (newPoss ct rest (off + p0.len)) k0 = none :=
          (alLookup_newPoss_none_iff ct rest (off + p0.len) k0).mpr
            (alLookup_eq_none_of_forall_ne rest k0
              (fun e he hh => absurd (hh ▸ hrel e he) (lt_irrefl _)))
        rw [ih cs (off + p0.len) _ _ hrest hm' k0, hnone]
        show alLookup (alInsert ixL k0 { term := ct, offset := off, len := p0.len }) k0 =
          some { term := ct, offset := off, len := p0.len }
        rw [alLookup_alInsert_self]
      · rw [if_neg hk]
        rw [ih cs (off + p0.len) _ _ hrest hm' k]
        cases hnp : alLookup (newPoss ct rest (off + p0.len)) k with
        | some q => rfl
        | none =>
          show alLookup (alInsert ixL k0 { term := ct, offset := off, len := p0.len }) k =
            alLookup ixL k
          exact alLookup_alInsert_ne ixL k0 k _ (fun hh => hk hh.symm)

/-! ### Unfolding helpers for `get` -/

theorem get_eq_of_absent (s : KvState) (k : String)
    (h : alLookup s.index k = none) : get s k = .ok none := by
  rw [get, h]

theorem get_eq_of_set (s : KvState) (k k' v : String) (p : Pos)
    (h : alLookup s.index k = some p)
    (hr : readCmd s.disk p = .ok (Command.set k' v)) : get s k = .ok (some v) := by
  rw [get, h]
  show (match readCmd s.disk p with
    | Except.error e => Except.error e
    | Except.ok (Command.set _ v) => Except.ok (some v)
    | Except.ok (Command.remove _) => Except.error KvsError.unexpectedCommandType) =
    Except.ok (some v)
  rw [hr]

/-! ### The compaction specification -/

theorem compact_spec (s : KvState) (hInv : Inv s) :
    ∃ s', compact s = (.ok (), s') ∧ Inv s' ∧
      (∀ k, get s' k = get s k) ∧
      s'.safe_point = s.current_term + 1 ∧
      s'.current_term = s.current_term + 2 ∧
      s'.uncompacted = 0 := by
  have hlt1 : ∀ e ∈ s.disk, e.1 < s.current_term + 1 := by
    intro e he
    have := hInv.terms_le e he
    omega
  have hd1 : diskCreate s.disk (s.current_term + 1) = s.disk ++ [(s.current_term + 1, [])] :=
    diskCreate_of_fresh_max _ _ hlt1
  have hlt2 : ∀ e ∈ s.disk ++ [(s.current_term + 1, [])], e.1 < s.current_term + 2 := by
    intro e he
    rcases List.mem_append.mp he with h | h
    · have := hInv.terms_le e h
      omega
    · rcases List.mem_singleton.mp h with rfl
      omega
  have hd0 : diskCreate (diskCreate s.disk (s.current_term + 1)) (s.current_term + 2) =
      s.disk ++ (s.current_term + 1, []) :: [(s.current_term + 2, [])] := by
    rw [hd1, diskCreate_of_fresh_max _ _ hlt2]
    simp
  have hget0 : diskGet (diskCreate (diskCreate s.disk (s.current_term + 1))
      (s.current_term + 2)) (s.current_term + 1) = some [] := by
    rw [diskGet_diskCreate_ne _ _ _ (by omega)]
    exact diskGet_diskCreate_fresh s.disk _
      ((alLookup_none_iff_forall _ _).mpr (fun e he => ne_of_lt (hlt1 e he)))
  have hval0 : ∀ e ∈ s.index, ∃ v,
      readCmd (diskCreate (diskCreate s.disk (s.current_term + 1)) (s.current_term + 2))
        e.2 = .ok (Command.set e.1 v) := by
    intro e he
    obtain ⟨v, hv⟩ := hInv.valid e he
    exact ⟨v, readCmd_diskCreate_ok _ _ _ _ (readCmd_diskCreate_ok _ _ _ _ hv)⟩
  obtain ⟨disk1, ix1, off1, recs, hloop, hother, hcurC, hmatch, hlook, hsortix1,
      hlive, hvalid1, hregion, hmem1⟩ :=
    compactLoop_main (s.current_term + 1) s.index
      (diskCreate (diskCreate s.disk (s.current_term + 1)) (s.current_term + 2))
      s.index 0 [] hInv.idx_sorted
      (fun e he => by have := hInv.term_le e he; omega)
      hval0 hInv.idx_sorted
      (fun e he => alLookup_eq_some_of_mem s.index e hInv.idx_sorted he)
      hget0 rfl
  have hterm1 : ∀ e ∈ ix1, e.2.term = s.current_term + 1 :=
    compactLoop_term_eq _ s.index _ s.index 0 hInv.idx_sorted
      (fun e he => Or.inr he) hloop
  have hdisk1 : disk1 = s.disk ++ (s.current_term + 1, recs) :: [(s.current_term + 2, [])] := by
    have h1 := hregion s.disk [] [(s.current_term + 2, [])] hd0
      (fun g hg => ne_of_lt (hlt1 g hg))
    rw [h1]
    simp
  have hfilter : disk1.filter (fun f => decide (s.current_term + 1 ≤ f.1)) =
      (s.current_term + 1, recs) :: [(s.current_term + 2, [])] := by
    rw [hdisk1, List.filter_append]
    have h1 : s.disk.filter (fun f => decide (s.current_term + 1 ≤ f.1)) = [] := by
      rw [List.filter_eq_nil_iff]
      intro e he
      have := hlt1 e he
      simp only [decide_eq_true_eq]
      omega
    rw [h1, List.nil_append,
      @List.filter_cons_of_pos (Nat × LogFile) (fun f => decide (s.current_term + 1 ≤ f.1))
        _ _ (by simp),
      @List.filter_cons_of_pos (Nat × LogFile) (fun f => decide (s.current_term + 1 ≤ f.1))
        _ _ (by simp)]
    rfl
  have hcompact : compact s = (.ok (), {
      disk := (s.current_term + 1, recs) :: [(s.current_term + 2, [])],
      index := ix1,
      current_term := s.current_term + 2,
      uncompacted := 0,
      safe_point := s.current_term + 1 }) := by
    rw [compact, hloop]
    show (Except.ok (), ({
      disk := disk1.filter (fun f => decide (s.current_term + 1 ≤ f.1)),
      index := ix1,
      current_term := s.current_term + 2,
      uncompacted := 0,
      safe_point := s.current_term + 1 } : KvState)) = _
    rw [hfilter]
  -- read positions in the compaction output are preserved by the filter
  have hgetrecs : diskGet ((s.current_term + 1, recs) :: [(s.current_term + 2, [])])
      (s.current_term + 1) = some recs := by
    show alLookup _ _ = _
    rw [alLookup_cons, if_pos rfl]
  have hget1 : diskGet disk1 (s.current_term + 1) = some recs := by
    rw [hcurC]
    rfl
  have htrans : ∀ q, q.term = s.current_term + 1 →
      readCmd ((s.current_term + 1, recs) :: [(s.current_term + 2, [])]) q =
        readCmd disk1 q := by
    intro q hq
    apply readCmd_congr
    rw [hq, hgetrecs, hget1]
  have hlooknone : ∀ k, alLookup s.index k = none →
      alLookup ix1 k = none := by
    intro k hk
    rw [hlook k, (alLookup_newPoss_none_iff _ s.index 0 k).mpr hk]
    exact hk
  have hlooksome : ∀ k p, alLookup s.index k = some p →
      ∃ q v, alLookup ix1 k = some q ∧
        readCmd s.disk p = .ok (Command.set k v) ∧
        readCmd ((s.current_term + 1, recs) :: [(s.current_term + 2, [])]) q =
          .ok (Command.set k v) := by
    intro k p hk
    cases hnp : alLookup (newPoss (s.current_term + 1) s.index 0) k with
    | none =>
      rw [(alLookup_newPoss_none_iff _ s.index 0 k).mp hnp] at hk
      exact absurd hk (by simp)
    | some q =>
      obtain ⟨w, p', hlk', hrd0, hrd1⟩ := hvalid1 k q hnp
      rw [hk] at hlk'
      obtain rfl : p = p' := by simpa using hlk'
      have hq : alLookup ix1 k = some q := by
        rw [hlook k, hnp]
      have hterm : q.term = s.current_term + 1 := (alLookup_newPoss_some _ s.index k q 0 hnp).1
      refine ⟨q, w, hq, ?_, ?_⟩
      · obtain ⟨v0, hv0⟩ := hInv.valid (k, p)
          (mem_of_alLookup_eq_some s.index k p hk)
        have := readCmd_diskCreate_ok
          (diskCreate s.disk (s.current_term + 1)) (s.current_term + 2) _ p
          (readCmd_diskCreate_ok s.disk (s.current_term + 1) _ p hv0)
        rw [this] at hrd0
        obtain rfl : v0 = w := by simpa using hrd0
        exact hv0
      · rw [htrans q hterm]
        exact hrd1
  refine ⟨_, hcompact, ?_, ?_, rfl, rfl, rfl⟩
  · constructor
    · exact hsortix1
    · refine List.pairwise_cons.mpr ⟨?_, by simp⟩
      intro b hb
      rcases List.mem_singleton.mp hb with rfl
      show s.current_term + 1 < s.current_term + 2
      omega
    · show (diskGet ((s.current_term + 1, recs) :: [(s.current_term + 2, [])])
        (s.current_term + 2)).isSome
      show (alLookup _ _).isSome
      rw [alLookup_cons, if_neg (by omega), alLookup_cons, if_pos rfl]
      rfl
    · intro f hf
      rcases List.mem_cons.mp hf with h | h
      · rw [h]
        show s.current_term + 1 ≤ s.current_term + 2
        omega
      · rcases List.mem_singleton.mp h with rfl
        exact le_refl _
    · show s.current_term + 1 < s.current_term + 2
      omega
    · intro e he
      rw [hterm1 e he]
    · intro e he
      rw [hterm1 e he]
      show s.current_term + 1 ≤ s.current_term + 2
      omega
    · intro e he
      have hlkp := alLookup_eq_some_of_mem ix1 e hsortix1 he
      cases hsi : alLookup s.index e.1 with
      | none => rw [hlooknone e.1 hsi] at hlkp; exact absurd hlkp (by simp)
      | some p =>
        obtain ⟨q, v, hq, hrdp, hrdq⟩ := hlooksome e.1 p hsi
        rw [hq] at hlkp
        obtain rfl : q = e.2 := by simpa using hlkp
        exact ⟨v, hrdq⟩
    · intro k
      show alLookup (loadAllIndex ((s.current_term + 1, recs) ::
        [(s.current_term + 2, [])])) k = alLookup ix1 k
      have hload : loadAllIndex ((s.current_term + 1, recs) :: [(s.current_term + 2, [])]) =
          (loadFileAux (s.current_term + 1) recs 0 [] 0).1 := rfl
      rw [hload, recsMatch_load (s.current_term + 1) s.index recs 0 [] 0
        hInv.idx_sorted hmatch k, hlook k]
      cases hnp : alLookup (newPoss (s.current_term + 1) s.index 0) k with
      | some q => rfl
      | none =>
        show (none : Option Pos) = alLookup s.index k
        rw [(alLookup_newPoss_none_iff _ s.index 0 k).mp hnp]
    · show setBytes ((s.current_term + 1, recs) :: [(s.current_term + 2, [])]) ≤
        liveBytes ix1 + 0
      rw [setBytes_cons, setBytes_cons]
      have h1 := recsMatch_setBytes s.index recs hmatch
      rw [hlive, h1]
      show liveBytes s.index + (0 + setBytes []) ≤ liveBytes s.index + 0
      rw [show setBytes ([] : Disk) = 0 from rfl]
  · intro k
    cases hsi : alLookup s.index k with
    | none =>
      rw [get_eq_of_absent s k hsi, get_eq_of_absent _ k]
      exact hlooknone k hsi
    | some p =>
      obtain ⟨q, v, hq, hrdp, hrdq⟩ := hlooksome k p hsi
      rw [get_eq_of_set s k k v p hsi hrdp, get_eq_of_set _ k k v q hq hrdq]

/-! ### Specifications of `set` and `remove` -/

theorem wSet_eq (s : KvState) (k v : String) :
    wSet s k v =
      if COMPACTION_THRESHOLD < (setBase s k v).uncompacted then compact (setBase s k v)
      else (.ok (), setBase s k v) := rfl

theorem wRemove_eq_present (s : KvState) (k : String) (prev : Pos)
    (h : alLookup s.index k = some prev) :
    wRemove s k = (.ok (), removeBase s k prev) := by
  rw [wRemove, h]
  rfl

theorem wRemove_eq_absent (s : KvState) (k : String)
    (h : alLookup s.index k = none) :
    wRemove s k =
      if COMPACTION_THRESHOLD < s.uncompacted then
        (match compact s with
         | (.ok _, s') => (.error .keyNotFound, s')
         | (.error e, s') => (.error e, s'))
      else (.error .keyNotFound, s) := by
  rw [wRemove, h]

theorem setBase_spec (s : KvState) (k v : String) (hInv : Inv s) :
    Inv (setBase s k v) ∧
    get (setBase s k v) k = .ok (some v) ∧
    (∀ k', k' ≠ k → get (setBase s k v) k' = get s k') ∧
    (setBase s k v).safe_point = s.safe_point ∧
    (setBase s k v).current_term = s.current_term := by
  obtain ⟨f, hf⟩ := Option.isSome_iff_exists.mp hInv.cur_file
  have hcf : currentFile s = f := by
    rw [currentFile, hf]
    rfl
  have hpos : ({ term := s.current_term, offset := fileBytes (currentFile s), len := encLen (Command.set k v) } : Pos) = { term := s.current_term, offset := fileBytes f, len := encLen (Command.set k v) } := by
    rw [hcf]
  have hidx : (setBase s k v).index = alInsert s.index k
      { term := s.current_term, offset := fileBytes f, len := encLen (Command.set k v) } := by
    show alInsert s.index k _ = _
    rw [hpos]
  have hdisk : (setBase s k v).disk = diskAppend s.disk s.current_term (Command.set k v) := rfl
  have hreadnew : readCmd (setBase s k v).disk
      { term := s.current_term, offset := fileBytes f, len := encLen (Command.set k v) } =
      .ok (Command.set k v) := by
    rw [hdisk]
    exact readCmd_diskAppend_fresh s.disk s.current_term (Command.set k v) f hf
  have hvalold : ∀ e ∈ s.index, ∃ w,
      readCmd (setBase s k v).disk e.2 = .ok (Command.set e.1 w) := by
    intro e he
    obtain ⟨w, hw⟩ := hInv.valid e he
    exact ⟨w, by rw [hdisk]; exact readCmd_diskAppend_ok _ _ _ _ _ hw⟩
  have hgetother : ∀ k', k' ≠ k → get (setBase s k v) k' = get s k' := by
    intro k' hk'
    have hlk : alLookup (setBase s k v).index k' = alLookup s.index k' := by
      rw [hidx]
      exact alLookup_alInsert_ne s.index k k' _ hk'
    cases hk : alLookup s.index k' with
    | none =>
      rw [get_eq_of_absent _ k' (by rw [hlk]; exact hk), get_eq_of_absent s k' hk]
    | some p =>
      obtain ⟨w, hw⟩ := hInv.valid (k', p) (mem_of_alLookup_eq_some s.index k' p hk)
      rw [get_eq_of_set s k' k' w p hk hw]
      refine get_eq_of_set _ k' k' w p (by rw [hlk]; exact hk) ?_
      rw [hdisk]
      exact readCmd_diskAppend_ok _ _ _ _ _ hw
  refine ⟨?_, ?_, hgetother, rfl, rfl⟩
  · constructor
    · rw [hidx]
      exact keySorted_alInsert s.index k _ hInv.idx_sorted
    · rw [hdisk]
      exact keySorted_diskAppend s.disk s.current_term _ hInv.disk_sorted hInv.cur_file
    · show (diskGet (diskAppend s.disk s.current_term (Command.set k v))
        s.current_term).isSome
      rw [diskGet_diskAppend_self]
      rfl
    · intro g hg
      rcases mem_diskAppend s.disk s.current_term _ g hg with h | h
      · exact hInv.terms_le g h.1
      · exact le_of_eq h
    · exact hInv.sp_lt
    · intro e he
      rw [hidx] at he
      rcases mem_alInsert s.index k _ e hInv.idx_sorted he with h | h
      · rw [h]
        exact le_of_lt hInv.sp_lt
      · exact hInv.sp_le e h.1
    · intro e he
      rw [hidx] at he
      rcases mem_alInsert s.index k _ e hInv.idx_sorted he with h | h
      · rw [h]
        exact le_refl _
      · exact hInv.term_le e h.1
    · intro e he
      rw [hidx] at he
      rcases mem_alInsert s.index k _ e hInv.idx_sorted he with h | h
      · rw [h]
        exact ⟨v, hreadnew⟩
      · exact hvalold e h.1
    · intro k'
      have hload : loadAllIndex (setBase s k v).disk = alInsert (loadAllIndex s.disk) k
          { term := s.current_term, offset := fileBytes f, len := encLen (Command.set k v) } := by
        rw [hdisk]
        exact loadAllIndex_diskAppend s.disk s.current_term (Command.set k v) f
          hInv.disk_sorted hf hInv.terms_le
      rw [hload, hidx]
      by_cases hk : k' = k
      · subst hk
        rw [alLookup_alInsert_self, alLookup_alInsert_self]
      · rw [alLookup_alInsert_ne _ k k' _ hk, alLookup_alInsert_ne _ k k' _ hk]
        exact hInv.reconstruct k'
    · show setBytes (setBase s k v).disk ≤ liveBytes (setBase s k v).index +
        (setBase s k v).uncompacted
      rw [hdisk, hidx, setBytes_diskAppend]
      have hins := liveBytes_alInsert s.index k
        { term := s.current_term, offset := fileBytes f, len := encLen (Command.set k v) }
        hInv.idx_sorted
      have hacc := hInv.acc
      show setBytes s.disk + cmdSetBytes (Command.set k v) ≤ _ +
        (match alLookup s.index k with
         | some prev => s.uncompacted + prev.len
         | none => s.uncompacted)
      rw [show cmdSetBytes (Command.set k v) = encLen (Command.set k v) from rfl]
      cases hk : alLookup s.index k with
      | none =>
        rw [hk] at hins
        have hins2 : liveBytes (alInsert s.index k { term := s.current_term, offset := fileBytes f, len := encLen (Command.set k v) }) + 0 = liveBytes s.index + encLen (Command.set k v) := hins
        show setBytes s.disk + encLen (Command.set k v) ≤
          liveBytes (alInsert s.index k { term := s.current_term, offset := fileBytes f, len := encLen (Command.set k v) }) + s.uncompacted
        omega
      | some prev =>
        rw [hk] at hins
        have hins2 : liveBytes (alInsert s.index k { term := s.current_term, offset := fileBytes f, len := encLen (Command.set k v) }) + prev.len = liveBytes s.index + encLen (Command.set k v) := hins
        show setBytes s.disk + encLen (Command.set k v) ≤
          liveBytes (alInsert s.index k { term := s.current_term, offset := fileBytes f, len := encLen (Command.set k v) }) + (s.uncompacted + prev.len)
        omega
  · refine get_eq_of_set _ k k v _ ?_ hreadnew
    rw [hidx]
    exact alLookup_alInsert_self s.index k _

theorem wSet_spec (s : KvState) (k v : String) (hInv : Inv s) :
    ∃ s', wSet s k v = (.ok (), s') ∧ Inv s' ∧
      get s' k = .ok (some v) ∧
      (∀ k', k' ≠ k → get s' k' = get s k') ∧
      s.safe_point ≤ s'.safe_point := by
  obtain ⟨hbInv, hbget, hbother, hbsp, hbct⟩ := setBase_spec s k v hInv
  rw [wSet_eq]
  by_cases hth : COMPACTION_THRESHOLD < (setBase s k v).uncompacted
  · rw [if_pos hth]
    obtain ⟨s', hc, hInv', hget', hsp', hct', hunc'⟩ := compact_spec (setBase s k v) hbInv
    refine ⟨s', hc, hInv', ?_, ?_, ?_⟩
    · rw [hget' k]
      exact hbget
    · intro k' hk'
      rw [hget' k']
      exact hbother k' hk'
    · rw [hsp', hbct]
      have := hInv.sp_lt
      omega
  · rw [if_neg hth]
    exact ⟨setBase s k v, rfl, hbInv, hbget, hbother, by rw [hbsp]⟩

theorem loadFileAux_fst_sorted (t : Nat) (cmds : LogFile) :
    ∀ (off : Nat) (ix : Index) (u : Nat), KeySorted ix →
    KeySorted (loadFileAux t cmds off ix u).1 := by
  induction cmds with
  | nil => intro off ix u h; exact h
  | cons c rest ih =>
    intro off ix u h
    cases c with
    | set k v =>
      rw [loadFileAux]
      exact ih _ _ _ (keySorted_alInsert ix k _ h)
    | remove k =>
      rw [loadFileAux]
      exact ih _ _ _ (keySorted_alErase ix k h)

theorem loadFold_sorted (d : Disk) :
    ∀ st : Index × Nat, KeySorted st.1 →
    KeySorted (d.foldl (fun st f => load f.1 f.2 st) st).1 := by
  induction d with
  | nil => intro st h; exact h
  | cons f rest ih =>
    intro st h
    rw [List.foldl_cons]
    exact ih _ (loadFileAux_fst_sorted f.1 f.2 0 st.1 st.2 h)

theorem loadAllIndex_sorted (d : Disk) : KeySorted (loadAllIndex d) :=
  loadFold_sorted d ([], 0) List.Pairwise.nil

theorem removeBase_spec (s : KvState) (k : String) (prev : Pos) (hInv : Inv s)
    (hk : alLookup s.index k = some prev) :
    Inv (removeBase s k prev) ∧
    get (removeBase s k prev) k = .ok none ∧
    (∀ k', k' ≠ k → get (removeBase s k prev) k' = get s k') ∧
    (removeBase s k prev).safe_point = s.safe_point := by
  have hidx : (removeBase s k prev).index = alErase s.index k := rfl
  have hdisk : (removeBase s k prev).disk =
      diskAppend s.disk s.current_term (Command.remove k) := rfl
  obtain ⟨f, hf⟩ := Option.isSome_iff_exists.mp hInv.cur_file
  have hvalold : ∀ e ∈ s.index, ∃ w,
      readCmd (removeBase s k prev).disk e.2 = .ok (Command.set e.1 w) := by
    intro e he
    obtain ⟨w, hw⟩ := hInv.valid e he
    exact ⟨w, by rw [hdisk]; exact readCmd_diskAppend_ok _ _ _ _ _ hw⟩
  have hgetother : ∀ k', k' ≠ k → get (removeBase s k prev) k' = get s k' := by
    intro k' hk'
    have hlk : alLookup (removeBase s k prev).index k' = alLookup s.index k' := by
      rw [hidx]
      exact alLookup_alErase_ne s.index k k' hk' hInv.idx_sorted
    cases hkk : alLookup s.index k' with
    | none =>
      rw [get_eq_of_absent _ k' (by rw [hlk]; exact hkk), get_eq_of_absent s k' hkk]
    | some p =>
      obtain ⟨w, hw⟩ := hInv.valid (k', p) (mem_of_alLookup_eq_some s.index k' p hkk)
      rw [get_eq_of_set s k' k' w p hkk hw]
      refine get_eq_of_set _ k' k' w p (by rw [hlk]; exact hkk) ?_
      rw [hdisk]
      exact readCmd_diskAppend_ok _ _ _ _ _ hw
  refine ⟨?_, ?_, hgetother, rfl⟩
  · constructor
    · rw [hidx]
      exact keySorted_alErase s.index k hInv.idx_sorted
    · rw [hdisk]
      exact keySorted_diskAppend s.disk s.current_term _ hInv.disk_sorted hInv.cur_file
    · show (diskGet (diskAppend s.disk s.current_term (Command.remove k))
        s.current_term).isSome
      rw [diskGet_diskAppend_self]
      rfl
    · intro g hg
      rcases mem_diskAppend s.disk s.current_term _ g hg with h | h
      · exact hInv.terms_le g h.1
      · exact le_of_eq h
    · exact hInv.sp_lt
    · intro e he
      rw [hidx] at he
      exact hInv.sp_le e (mem_alErase s.index k e he)
    · intro e he
      rw [hidx] at he
      exact hInv.term_le e (mem_alErase s.index k e he)
    · intro e he
      rw [hidx] at he
      exact hvalold e (mem_alErase s.index k e he)
    · intro k'
      have hload : loadAllIndex (removeBase s k prev).disk =
          alErase (loadAllIndex s.disk) k := by
        rw [hdisk]
        exact loadAllIndex_diskAppend s.disk s.current_term (Command.remove k) f
          hInv.disk_sorted hf hInv.terms_le
      rw [hload, hidx]
      have hsortload : KeySorted (loadAllIndex s.disk) := loadAllIndex_sorted s.disk
      by_cases hkk : k' = k
      · subst hkk
        rw [alLookup_alErase_self _ _ hsortload,
          alLookup_alErase_self _ _ hInv.idx_sorted]
      · rw [alLookup_alErase_ne _ k k' hkk hsortload,
          alLookup_alErase_ne _ k k' hkk hInv.idx_sorted]
        exact hInv.reconstruct k'
    · show setBytes (removeBase s k prev).disk ≤ liveBytes (alErase s.index k) +
        (s.uncompacted + prev.len)
      rw [hdisk, setBytes_diskAppend]
      have hers := liveBytes_alErase s.index k
      rw [hk] at hers
      have hers2 : liveBytes s.index = liveBytes (alErase s.index k) + prev.len := hers
      have hacc := hInv.acc
      rw [show cmdSetBytes (Command.remove k) = 0 from rfl]
      omega
  · refine get_eq_of_absent _ k ?_
    rw [hidx]
    exact alLookup_alErase_self s.index k hInv.idx_sorted

/-! ### Operation dispatch and run lemmas -/

theorem execOp_ok_spec (s : KvState) (op : Op) (s' : KvState) (u : Unit)
    (hInv : Inv s) (h : execOp s op = (.ok u, s')) :
    Inv s' ∧ s.safe_point ≤ s'.safe_point ∧
    (get s' (opKey op) =
      match op with
      | .set _ v => .ok (some v)
      | .remove _ => .ok none) ∧
    (∀ k', k' ≠ opKey op → get s' k' = get s k') := by
  cases op with
  | set k v =>
    obtain ⟨s'', hw, hInv', hget, hother, hsp⟩ := wSet_spec s k v hInv
    rw [show execOp s (Op.set k v) = wSet s k v from rfl, hw] at h
    obtain ⟨-, h2⟩ := Prod.mk.injEq .. |>.mp h
    subst h2
    exact ⟨hInv', hsp, hget, hother⟩
  | remove k =>
    cases hk : alLookup s.index k with
    | some prev =>
      obtain ⟨hInv', hget, hother, hsp⟩ := removeBase_spec s k prev hInv hk
      rw [show execOp s (Op.remove k) = wRemove s k from rfl,
        wRemove_eq_present s k prev hk] at h
      obtain ⟨-, h2⟩ := Prod.mk.injEq .. |>.mp h
      subst h2
      exact ⟨hInv', le_of_eq hsp.symm, hget, hother⟩
    | none =>
      rw [show execOp s (Op.remove k) = wRemove s k from rfl,
        wRemove_eq_absent s k hk] at h
      by_cases hth : COMPACTION_THRESHOLD < s.uncompacted
      · rw [if_pos hth] at h
        obtain ⟨s'', hc, -, -, -, -, -⟩ := compact_spec s hInv
        rw [hc] at h
        exact absurd (congrArg Prod.fst h) (by simp)
      · rw [if_neg hth] at h
        exact absurd (congrArg Prod.fst h) (by simp)

theorem execOp_any_spec (s : KvState) (op : Op) (hInv : Inv s) :
    Inv (execOp s op).2 ∧ s.safe_point ≤ (execOp s op).2.safe_point := by
  cases op with
  | set k v =>
    obtain ⟨s'', hw, hInv', hget, hother, hsp⟩ := wSet_spec s k v hInv
    rw [show execOp s (Op.set k v) = wSet s k v from rfl, hw]
    exact ⟨hInv', hsp⟩
  | remove k =>
    cases hk : alLookup s.index k with
    | some prev =>
      obtain ⟨hInv', hget, hother, hsp⟩ := removeBase_spec s k prev hInv hk
      rw [show execOp s (Op.remove k) = wRemove s k from rfl,
        wRemove_eq_present s k prev hk]
      exact ⟨hInv', le_of_eq hsp.symm⟩
    | none =>
      rw [show execOp s (Op.remove k) = wRemove s k from rfl,
        wRemove_eq_absent s k hk]
      by_cases hth : COMPACTION_THRESHOLD < s.uncompacted
      · rw [if_pos hth]
        obtain ⟨s'', hc, hInv', -, hsp, -, -⟩ := compact_spec s hInv
        rw [hc]
        refine ⟨hInv', ?_⟩
        show s.safe_point ≤ s''.safe_point
        rw [hsp]
        have := hInv.sp_lt
        omega
      · rw [if_neg hth]
        exact ⟨hInv, le_refl _⟩

theorem runAll_spec (ops : List Op) :
    ∀ s : KvState, Inv s →
    Inv (runAll s ops) ∧ s.safe_point ≤ (runAll s ops).safe_point := by
  induction ops with
  | nil => intro s h; exact ⟨h, le_refl _⟩
  | cons op rest ih =>
    intro s h
    obtain ⟨h1, h2⟩ := execOp_any_spec s op h
    obtain ⟨h3, h4⟩ := ih (execOp s op).2 h1
    exact ⟨h3, h2.trans h4⟩

theorem lastOp_foldl_acc (k : String) (ops : List Op) :
    ∀ acc : Option (Option String),
    ops.foldl
      (fun acc op =>
        match op with
        | .set k' v => if k' = k then some (some v) else acc
        | .remove k' => if k' = k then some none else acc) acc =
      match lastOp ops k with
      | some x => some x
      | none => acc := by
  induction ops with
  | nil => intro acc; rfl
  | cons op rest ih =>
    intro acc
    rw [List.foldl_cons, ih]
    have hR : lastOp (op :: rest) k =
        match lastOp rest k with
        | some x => some x
        | none =>
          match op with
          | .set k' v => if k' = k then some (some v) else none
          | .remove k' => if k' = k then some none else none := by
      show rest.foldl _ _ = _
      rw [ih]
    rw [hR]
    cases hrest : lastOp rest k with
    | some x => rfl
    | none =>
      cases op with
      | set k' v =>
        show (if k' = k then some (some v) else acc) =
          match (if k' = k then some (some v) else none) with
          | some x => some x
          | none => acc
        by_cases hk : k' = k
        · rw [if_pos hk, if_pos hk]
        · rw [if_neg hk, if_neg hk]
      | remove k' =>
        show (if k' = k then some none else acc) =
          match (if k' = k then some none else none) with
          | some x => some x
          | none => acc
        by_cases hk : k' = k
        · rw [if_pos hk, if_pos hk]
        · rw [if_neg hk, if_neg hk]

theorem lastOp_cons (op : Op) (rest : List Op) (k : String) :
    lastOp (op :: rest) k =
      match lastOp rest k with
      | some x => some x
      | none =>
        match op with
        | .set k' v => if k' = k then some (some v) else none
        | .remove k' => if k' = k then some none else none := by
  show rest.foldl _ _ = _
  rw [lastOp_foldl_acc k rest]

theorem runOk_get (ops : List Op) :
    ∀ s s1 : KvState, Inv s → runOk s ops = some s1 →
    Inv s1 ∧ ∀ k, get s1 k =
      match lastOp ops k with
      | some (some v) => .ok (some v)
      | some none => .ok none
      | none => get s k := by
  induction ops with
  | nil =>
    intro s s1 hInvS h
    obtain rfl : s = s1 := by simpa [runOk] using h
    exact ⟨hInvS, fun k => rfl⟩
  | cons op rest ih =>
    intro s s1 hInvS h
    cases hex : execOp s op with
    | mk r s' =>
      cases r with
      | error e =>
        rw [runOk, hex] at h
        exact absurd h (by simp)
      | ok u =>
        rw [runOk, hex] at h
        have h' : runOk s' rest = some s1 := h
        obtain ⟨hInv', hsp, hgetop, hother⟩ := execOp_ok_spec s op s' u hInvS hex
        obtain ⟨hInv1, hget1⟩ := ih s' s1 hInv' h'
        refine ⟨hInv1, fun k => ?_⟩
        rw [hget1 k, lastOp_cons]
        cases hrest : lastOp rest k with
        | some x => cases x <;> rfl
        | none =>
          cases op with
          | set k' v =>
            show get s' k =
              match (if k' = k then some (some v) else none) with
              | some (some w) => Except.ok (some w)
              | some none => Except.ok none
              | none => get s k
            by_cases hk : k' = k
            · subst hk
              rw [if_pos rfl]
              exact hgetop
            · rw [if_neg hk]
              exact hother k (fun hh => hk hh.symm)
          | remove k' =>
            show get s' k =
              match (if k' = k then some none else none) with
              | some (some w) => Except.ok (some w)
              | some none => Except.ok none
              | none => get s k
            by_cases hk : k' = k
            · subst hk
              rw [if_pos rfl]
              exact hgetop
            · rw [if_neg hk]
              exact hother k (fun hh => hk hh.symm)

theorem runOk_other (ops : List Op) (k : String) :
    ∀ s s1 : KvState, Inv s → runOk s ops = some s1 →
    (∀ op ∈ ops, opKey op ≠ k) → get s1 k = get s k := by
  induction ops with
  | nil =>
    intro s s1 hInvS h hops
    obtain rfl : s = s1 := by simpa [runOk] using h
    rfl
  | cons op rest ih =>
    intro s s1 hInvS h hops
    cases hex : execOp s op with
    | mk r s' =>
      cases r with
      | error e =>
        rw [runOk, hex] at h
        exact absurd h (by simp)
      | ok u =>
        rw [runOk, hex] at h
        have h' : runOk s' rest = some s1 := h
        obtain ⟨hInv', hsp, hgetop, hother⟩ := execOp_ok_spec s op s' u hInvS hex
        rw [ih s' s1 hInv' h' (fun o ho => hops o (List.mem_cons_of_mem _ ho))]
        exact hother k (fun hh => hops op (List.mem_cons_self _ _) hh.symm)

/-! ### Recovery establishes the invariant -/

theorem diskGet_append_left (d1 d2 : Disk) (t : Nat) (g : LogFile)
    (h : diskGet d1 t = some g) : diskGet (d1 ++ d2) t = some g := by
  show alLookup (d1 ++ d2) t = some g
  rw [alLookup_append]
  rw [show alLookup d1 t = some g from h]

theorem le_lastKey (d : Disk) (hs : KeySorted d) :
    ∀ g ∈ d, g.1 ≤ (d.map (fun e => e.1)).getLast?.getD 0 := by
  induction d with
  | nil => intro g hg; exact absurd hg (List.not_mem_nil _)
  | cons f rest ih =>
    rcases List.pairwise_cons.mp hs with ⟨hrel, hrest⟩
    intro g hg
    cases rest with
    | nil =>
      rcases List.mem_singleton.mp hg with rfl
      exact le_refl _
    | cons r rs =>
      have hmap : ((f :: r :: rs).map (fun e => e.1)).getLast?.getD 0 =
          ((r :: rs).map (fun e => e.1)).getLast?.getD 0 := by
        rw [List.map_cons, List.map_cons, List.getLast?_cons_cons]
      rw [hmap]
      rcases List.mem_cons.mp hg with h | h
      · subst h
        have h1 := hrel r (List.mem_cons_self _ _)
        have h2 := ih hrest r (List.mem_cons_self _ _)
        omega
      · exact ih hrest g h

theorem loadFileAux_valid (D : Disk) (t : Nat) (cmds : LogFile) :
    ∀ (off : Nat) (ix : Index) (u : Nat),
    (∀ e ∈ ix, ∃ v, readCmd D e.2 = .ok (Command.set e.1 v)) →
    (∀ q c, (q, c) ∈ positionedRecords t cmds off → readCmd D q = .ok c) →
    KeySorted ix →
    ∀ e ∈ (loadFileAux t cmds off ix u).1, ∃ v, readCmd D e.2 = .ok (Command.set e.1 v) := by
  induction cmds with
  | nil => intro off ix u hix hrec hs e he; exact hix e he
  | cons c rest ih =>
    intro off ix u hix hrec hs e he
    cases c with
    | set k v =>
      rw [loadFileAux] at he
      refine ih (off + encLen (Command.set k v)) _ _ ?_ ?_
        (keySorted_alInsert _ _ _ hs) e he
      · intro e' he'
        rcases mem_alInsert ix k _ e' hs he' with h | h
        · rw [h]
          refine ⟨v, hrec { term := t, offset := off, len := encLen (Command.set k v) }
            (Command.set k v) ?_⟩
          rw [positionedRecords]
          exact List.mem_cons_self _ _
        · exact hix e' h.1
      · intro q c h
        refine hrec q c ?_
        rw [positionedRecords]
        exact List.mem_cons_of_mem _ h
    | remove k =>
      rw [loadFileAux] at he
      refine ih (off + encLen (Command.remove k)) _ _ ?_ ?_
        (keySorted_alErase _ _ hs) e he
      · intro e' he'
        exact hix e' (mem_alErase ix k e' he')
      · intro q c h
        refine hrec q c ?_
        rw [positionedRecords]
        exact List.mem_cons_of_mem _ h

theorem loadFold_valid : ∀ (d : Disk), DiskWF d →
    ∀ e ∈ loadAllIndex d, ∃ v, readCmd d e.2 = .ok (Command.set e.1 v) := by
  intro d
  induction d using List.reverseRecOn with
  | nil =>
    intro hwf e he
    exact absurd he (List.not_mem_nil _)
  | append_singleton d1 f ih =>
    intro hwf e he
    obtain ⟨t, fl⟩ := f
    have hwf1 : DiskWF d1 :=
      List.Pairwise.sublist (List.sublist_append_left d1 _) hwf
    have hlt : ∀ g ∈ d1, g.1 < t := by
      intro g hg
      exact (List.pairwise_append.mp hwf).2.2 g hg (t, fl) (List.mem_singleton_self _)
    rw [loadAllIndex_append_single] at he
    refine loadFileAux_valid (d1 ++ [(t, fl)]) t fl 0 (loadAllIndex d1) _ ?_ ?_
      (loadAllIndex_sorted d1) e he
    · intro e' he'
      obtain ⟨v, hv⟩ := ih hwf1 e' he'
      obtain ⟨g, hg, hfr⟩ := (readCmd_eq_ok_iff d1 e'.2 _).mp hv
      exact ⟨v, (readCmd_eq_ok_iff _ _ _).mpr ⟨g, diskGet_append_left d1 _ _ g hg, hfr⟩⟩
    · intro q c h
      have hterm : q.term = t := mem_positionedRecords_term t fl 0 (q, c) h
      refine (readCmd_eq_ok_iff _ _ _).mpr
        ⟨fl, ?_, findRecord_of_mem_positionedRecords t fl 0 q c h⟩
      rw [hterm]
      have h1 : alLookup d1 t = none :=
        alLookup_eq_none_of_forall_ne d1 t (fun g hg => ne_of_lt (hlt g hg))
      show alLookup (d1 ++ [(t, fl)]) t = some fl
      rw [alLookup_append, h1]
      show alLookup [(t, fl)] t = some fl
      rw [alLookup_cons, if_pos rfl]

theorem loadFileAux_acc (t : Nat) (cmds : LogFile) :
    ∀ (off : Nat) (ix : Index) (u : Nat), KeySorted ix →
    liveBytes ix + u + (cmds.map cmdSetBytes).sum ≤
      liveBytes (loadFileAux t cmds off ix u).1 + (loadFileAux t cmds off ix u).2 := by
  induction cmds with
  | nil =>
    intro off ix u hs
    have hstep : loadFileAux t [] off ix u = (ix, u) := rfl
    rw [hstep, List.map_nil, List.sum_nil]
    exact le_of_eq (Nat.add_zero _)
  | cons c rest ih =>
    intro off ix u hs
    rw [List.map_cons, List.sum_cons]
    cases c with
    | set k v =>
      have hins := liveBytes_alInsert ix k
        { term := t, offset := off, len := encLen (Command.set k v) } hs
      cases hlk : alLookup ix k with
      | none =>
        rw [hlk] at hins
        have hins2 : liveBytes (alInsert ix k { term := t, offset := off, len := encLen (Command.set k v) }) + 0 = liveBytes ix + encLen (Command.set k v) := hins
        have hstep : loadFileAux t (Command.set k v :: rest) off ix u =
            loadFileAux t rest (off + encLen (Command.set k v)) (alInsert ix k { term := t, offset := off, len := encLen (Command.set k v) }) u := by
          simp only [loadFileAux, hlk]
        rw [hstep, show cmdSetBytes (Command.set k v) = encLen (Command.set k v) from rfl]
        have hrec := ih (off + encLen (Command.set k v))
          (alInsert ix k { term := t, offset := off, len := encLen (Command.set k v) }) u
          (keySorted_alInsert ix k _ hs)
        omega
      | some p =>
        rw [hlk] at hins
        have hins2 : liveBytes (alInsert ix k { term := t, offset := off, len := encLen (Command.set k v) }) + p.len = liveBytes ix + encLen (Command.set k v) := hins
        have hstep : loadFileAux t (Command.set k v :: rest) off ix u =
            loadFileAux t rest (off + encLen (Command.set k v)) (alInsert ix k { term := t, offset := off, len := encLen (Command.set k v) }) (u + p.len) := by
          simp only [loadFileAux, hlk]
        rw [hstep, show cmdSetBytes (Command.set k v) = encLen (Command.set k v) from rfl]
        have hrec := ih (off + encLen (Command.set k v))
          (alInsert ix k { term := t, offset := off, len := encLen (Command.set k v) })
          (u + p.len) (keySorted_alInsert ix k _ hs)
        omega
    | remove k =>
      have hers := liveBytes_alErase ix k
      cases hlk : alLookup ix k with
      | none =>
        rw [hlk] at hers
        have hers2 : liveBytes ix = liveBytes (alErase ix k) + 0 := hers
        have hstep : loadFileAux t (Command.remove k :: rest) off ix u =
            loadFileAux t rest (off + encLen (Command.remove k)) (alErase ix k) (u + (off + encLen (Command.remove k) - off)) := by
          simp only [loadFileAux, hlk]
        rw [hstep, show cmdSetBytes (Command.remove k) = 0 from rfl]
        have hrec := ih (off + encLen (Command.remove k)) (alErase ix k)
          (u + (off + encLen (Command.remove k) - off)) (keySorted_alErase ix k hs)
        omega
      | some p =>
        rw [hlk] at hers
        have hers2 : liveBytes ix = liveBytes (alErase ix k) + p.len := hers
        have hstep : loadFileAux t (Command.remove k :: rest) off ix u =
            loadFileAux t rest (off + encLen (Command.remove k)) (alErase ix k) (u + p.len + (off + encLen (Command.remove k) - off)) := by
          simp only [loadFileAux, hlk]
        rw [hstep, show cmdSetBytes (Command.remove k) = 0 from rfl]
        have hrec := ih (off + encLen (Command.remove k)) (alErase ix k)
          (u + p.len + (off + encLen (Command.remove k) - off)) (keySorted_alErase ix k hs)
        omega

theorem loadFold_acc (d : Disk) :
    ∀ st : Index × Nat, KeySorted st.1 →
    liveBytes st.1 + st.2 + setBytes d ≤
      liveBytes (d.foldl (fun st f => load f.1 f.2 st) st).1 +
        (d.foldl (fun st f => load f.1 f.2 st) st).2 := by
  induction d with
  | nil =>
    intro st hs
    have hstep : ([] : Disk).foldl (fun st f => load f.1 f.2 st) st = st := rfl
    rw [hstep, show setBytes ([] : Disk) = 0 from rfl]
    exact le_of_eq (Nat.add_zero _)
  | cons f rest ih =>
    intro st hs
    rw [List.foldl_cons, setBytes_cons]
    have hld : load f.1 f.2 st = loadFileAux f.1 f.2 0 st.1 st.2 := rfl
    have h1 := loadFileAux_acc f.1 f.2 0 st.1 st.2 hs
    have h2 := ih (load f.1 f.2 st) (loadFileAux_fst_sorted f.1 f.2 0 st.1 st.2 hs)
    rw [hld] at h2
    rw [hld]
    omega

theorem inv_openStore (d : Disk) (hwf : DiskWF d) : Inv (openStore d) := by
  have hsd : sorted_terms d = d := sorted_terms_eq_self d hwf
  have hidx : (openStore d).index = loadAllIndex d := by
    show ((sorted_terms d).foldl (fun st f => load f.1 f.2 st) ([], 0)).1 = _
    rw [hsd]
    rfl
  have hunc : (openStore d).uncompacted =
      (d.foldl (fun st f => load f.1 f.2 st) ([], 0)).2 := by
    show ((sorted_terms d).foldl (fun st f => load f.1 f.2 st) ([], 0)).2 = _
    rw [hsd]
  have hct : (openStore d).current_term =
      (d.map (fun e => e.1)).getLast?.getD 0 + 1 := by
    show ((sorted_terms d).map (fun e => e.1)).getLast?.getD 0 + 1 = _
    rw [hsd]
  have hdisk : (openStore d).disk =
      d ++ [((d.map (fun e => e.1)).getLast?.getD 0 + 1, [])] := by
    show diskCreate (sorted_terms d)
      (((sorted_terms d).map (fun e => e.1)).getLast?.getD 0 + 1) = _
    rw [hsd]
    refine diskCreate_of_fresh_max d _ ?_
    intro e he
    have := le_lastKey d hwf e he
    omega
  have hvalload : ∀ e ∈ loadAllIndex d, ∃ v, readCmd d e.2 = .ok (Command.set e.1 v) :=
    loadFold_valid d hwf
  have htermload : ∀ e ∈ loadAllIndex d,
      e.2.term ≤ (d.map (fun e => e.1)).getLast?.getD 0 := by
    intro e he
    obtain ⟨v, hv⟩ := hvalload e he
    obtain ⟨g, hg, -⟩ := (readCmd_eq_ok_iff d e.2 _).mp hv
    exact le_lastKey d hwf (e.2.term, g) (mem_of_alLookup_eq_some d e.2.term g hg)
  constructor
  · rw [hidx]
    exact loadAllIndex_sorted d
  · rw [hdisk]
    refine List.pairwise_append.mpr ⟨hwf, List.pairwise_singleton _ _, ?_⟩
    intro a ha b hb
    rcases List.mem_singleton.mp hb with rfl
    have := le_lastKey d hwf a ha
    show a.1 < (d.map (fun e => e.1)).getLast?.getD 0 + 1
    omega
  · rw [hdisk, hct]
    have h1 : alLookup d ((d.map (fun e => e.1)).getLast?.getD 0 + 1) = none := by
      refine alLookup_eq_none_of_forall_ne d _ ?_
      intro e he
      have := le_lastKey d hwf e he
      omega
    show (alLookup (d ++ [((d.map (fun e => e.1)).getLast?.getD 0 + 1, [])]) _).isSome
    rw [alLookup_append, h1]
    show (alLookup [((d.map (fun e => e.1)).getLast?.getD 0 + 1, [])] _).isSome
    rw [alLookup_cons, if_pos rfl]
    rfl
  · intro g hg
    rw [hdisk] at hg
    rw [hct]
    rcases List.mem_append.mp hg with h | h
    · have := le_lastKey d hwf g h
      omega
    · rcases List.mem_singleton.mp h with rfl
      exact le_refl _
  · rw [hct]
    show 0 < _ + 1
    omega
  · intro e he
    exact Nat.zero_le _
  · intro e he
    rw [hidx] at he
    rw [hct]
    have := htermload e he
    omega
  · intro e he
    rw [hidx] at he
    obtain ⟨v, hv⟩ := hvalload e he
    obtain ⟨g, hg, hfr⟩ := (readCmd_eq_ok_iff d e.2 _).mp hv
    refine ⟨v, (readCmd_eq_ok_iff _ _ _).mpr ⟨g, ?_, hfr⟩⟩
    rw [hdisk]
    exact diskGet_append_left d _ _ g hg
  · intro k
    rw [hidx, hdisk, loadAllIndex_append_single]
    rfl
  · rw [hidx, hdisk, hunc, setBytes_append]
    have h1 : setBytes [((d.map (fun e => e.1)).getLast?.getD 0 + 1, [])] = 0 := by
      rw [setBytes_cons]
      rfl
    rw [h1]
    have h2 := loadFold_acc d ([], 0) List.Pairwise.nil
    have h2' : liveBytes ([] : Index) + 0 + setBytes d ≤
        liveBytes (loadAllIndex d) +
          (d.foldl (fun st f => load f.1 f.2 st) ([], 0)).2 := h2
    have h3 : liveBytes ([] : Index) = 0 := rfl
    omega

theorem get_openStore (s : KvState) (hInv : Inv s) :
    ∀ k, get (openStore s.disk) k = get s k := by
  intro k
  have hsd : sorted_terms s.disk = s.disk :=
    sorted_terms_eq_self s.disk hInv.disk_sorted
  have hidx : (openStore s.disk).index = loadAllIndex s.disk := by
    show ((sorted_terms s.disk).foldl (fun st f => load f.1 f.2 st) ([], 0)).1 = _
    rw [hsd]
    rfl
  have hdisk : (openStore s.disk).disk =
      s.disk ++ [((s.disk.map (fun e => e.1)).getLast?.getD 0 + 1, [])] := by
    show diskCreate (sorted_terms s.disk)
      (((sorted_terms s.disk).map (fun e => e.1)).getLast?.getD 0 + 1) = _
    rw [hsd]
    refine diskCreate_of_fresh_max s.disk _ ?_
    intro e he
    have := le_lastKey s.disk hInv.disk_sorted e he
    omega
  have hlk : alLookup (openStore s.disk).index k = alLookup s.index k := by
    rw [hidx]
    exact hInv.reconstruct k
  cases hk : alLookup s.index k with
  | none =>
    rw [get_eq_of_absent _ k (by rw [hlk]; exact hk), get_eq_of_absent s k hk]
  | some p =>
    obtain ⟨v, hv⟩ := hInv.valid (k, p) (mem_of_alLookup_eq_some s.index k p hk)
    rw [get_eq_of_set s k k v p hk hv]
    refine get_eq_of_set _ k k v p (by rw [hlk]; exact hk) ?_
    obtain ⟨g, hg, hfr⟩ := (readCmd_eq_ok_iff s.disk p _).mp hv
    refine (readCmd_eq_ok_iff _ _ _).mpr ⟨g, ?_, hfr⟩
    rw [hdisk]
    exact diskGet_append_left s.disk _ _ g hg

/-! ### Remaining claims -/

/-- Claim C1: durability across restart — after any sequence of
set/remove operations that each return success, reopening the engine
from the resulting directory and reading an affected key returns the
last successfully set value, or `None` when the last successful
operation on that key was a remove. -/
theorem c1_durability (d : Disk) (hwf : DiskWF d) (ops : List Op) (s1 : KvState)
    (hrun : runOk (openStore d) ops = some s1) (k : String) (r : Option String)
    (hl : lastOp ops k = some r) :
    get (openStore s1.disk) k = .ok r := by
  obtain ⟨hInv1, hget1⟩ := runOk_get ops (openStore d) s1 (inv_openStore d hwf) hrun
  rw [get_openStore s1 hInv1 k, hget1 k, hl]
  cases r <;> rfl

/-- Witness for C1: a concrete single-key history ending in a remove,
replayed through a restart. -/
theorem c1_durability_witness :
    DiskWF ([] : Disk) ∧
    lastOp [Op.set "a" "1", Op.set "a" "2", Op.remove "a"] "a" = some none ∧
    get (openStore (runAll (openStore [])
      [Op.set "a" "1", Op.set "a" "2", Op.remove "a"]).disk) "a" = .ok none :=
  ⟨List.Pairwise.nil, rfl,
   c1_durability [] List.Pairwise.nil [Op.set "a" "1", Op.set "a" "2", Op.remove "a"]
     (runAll (openStore []) [Op.set "a" "1", Op.set "a" "2", Op.remove "a"]) rfl
     "a" none rfl⟩

/-- Claim C2: round trip — a successful `set(k,v)` followed by any
sequence of successful operations on keys other than `k` (including
ones that trigger compaction) leaves `get(k)` returning
`Ok(Some v)`. -/
theorem c2_round_trip (s : KvState) (hInv : Inv s) (k v : String)
    (ops : List Op) (s1 s2 : KvState)
    (hset : wSet s k v = (.ok (), s1))
    (hrun : runOk s1 ops = some s2)
    (hothers : ∀ op ∈ ops, opKey op ≠ k) :
    get s2 k = .ok (some v) := by
  obtain ⟨s', hw, hInv', hget, hother, hsp⟩ := wSet_spec s k v hInv
  rw [hw] at hset
  obtain ⟨-, h2⟩ := Prod.mk.injEq .. |>.mp hset
  subst h2
  rw [runOk_other ops k _ s2 hInv' hrun hothers]
  exact hget

/-- Witness for C2 at a concrete set with no intervening operations. -/
theorem c2_round_trip_witness :
    wSet (openStore []) "a" "1" = (.ok (), (wSet (openStore []) "a" "1").2) ∧
    get (wSet (openStore []) "a" "1").2 "a" = .ok (some "1") :=
  ⟨rfl,
   c2_round_trip (openStore []) (inv_openStore [] List.Pairwise.nil) "a" "1" []
     (wSet (openStore []) "a" "1").2 (wSet (openStore []) "a" "1").2 rfl rfl
     (fun op h => absurd h (List.not_mem_nil _))⟩

/-- State after a successful set of key `"a"` followed by a
successful remove of it, starting from an empty directory. -/
def c4state : KvState := (wRemove (wSet (openStore []) "a" "1").2 "a").2

/-- Counterexample to C4 as stated: after a successful set then a
successful remove both the displaced `Set` record and the `Remove`
record itself are unreferenced on disk, but the code only adds the
displaced record's length to the counter (the `Remove` record's own
length is never counted during normal operation), so `uncompacted`
falls strictly below the unreferenced byte total. -/
theorem c4_unreferenced_counterexample :
    (wSet (openStore []) "a" "1").1 = .ok () ∧
    (wRemove (wSet (openStore []) "a" "1").2 "a").1 = .ok () ∧
    ¬ (unreferencedBytes c4state.disk c4state.index ≤ c4state.uncompacted) :=
  ⟨rfl, rfl, by decide⟩

/-- Claim C4, amended: the dead-byte counter dominates the bytes of
`Set` records on disk not covered by the live index (equivalently,
total `Set` bytes are at most live index bytes plus the counter);
the bound holds after open of a well-formed directory, after every
engine operation from an invariant state, and after compaction. -/
theorem c4_uncompacted_bound :
    (∀ d, DiskWF d →
      setBytes (openStore d).disk ≤
        liveBytes (openStore d).index + (openStore d).uncompacted) ∧
    (∀ s op, Inv s →
      setBytes (execOp s op).2.disk ≤
        liveBytes (execOp s op).2.index + (execOp s op).2.uncompacted) ∧
    (∀ s u s', Inv s → compact s = (.ok u, s') →
      setBytes s'.disk ≤ liveBytes s'.index + s'.uncompacted) := by
  refine ⟨?_, ?_, ?_⟩
  · intro d hwf
    exact (inv_openStore d hwf).acc
  · intro s op hInv
    exact ((execOp_any_spec s op hInv).1).acc
  · intro s u s' hInv hc
    obtain ⟨s'', hc', hInv', -, -, -, -⟩ := compact_spec s hInv
    rw [hc'] at hc
    obtain ⟨-, h2⟩ := Prod.mk.injEq .. |>.mp hc
    subst h2
    exact hInv'.acc

/-- Witness for C4's amended bound after one concrete operation. -/
theorem c4_uncompacted_bound_witness :
    setBytes (execOp (openStore []) (Op.set "a" "1")).2.disk ≤
      liveBytes (execOp (openStore []) (Op.set "a" "1")).2.index +
        (execOp (openStore []) (Op.set "a" "1")).2.uncompacted :=
  c4_uncompacted_bound.2.1 (openStore []) (Op.set "a" "1")
    (inv_openStore [] List.Pairwise.nil)

/-- Claim C10: the safe point starts at 0 on open, compaction sets it
to `compact_term = current_term + 1`, and it never decreases over any
sequence of engine operations from an invariant state. -/
theorem c10_safe_point_monotonic :
    (∀ d, (openStore d).safe_point = 0) ∧
    (∀ s u s', compact s = (.ok u, s') → s'.safe_point = s.current_term + 1) ∧
    (∀ s ops, Inv s → s.safe_point ≤ (runAll s ops).safe_point) := by
  refine ⟨fun d => rfl, ?_, ?_⟩
  · intro s u s' hc
    rcases hloop : compactLoop (s.current_term + 1) s.index
        (diskCreate (diskCreate s.disk (s.current_term + 1)) (s.current_term + 2))
        s.index 0 with ⟨r, disk1, ix1, off1⟩
    cases r with
    | error e =>
      rw [compact, hloop] at hc
      exact absurd (congrArg Prod.fst hc) (by simp)
    | ok v =>
      rw [compact, hloop] at hc
      obtain ⟨-, h2⟩ := Prod.mk.injEq .. |>.mp hc
      subst h2
      rfl
  · intro s ops hInv
    exact (runAll_spec ops s hInv).2

/-- Witness for C10: monotonicity over one concrete operation. -/
theorem c10_safe_point_monotonic_witness :
    (openStore ([] : Disk)).safe_point ≤
      (runAll (openStore []) [Op.set "a" "1"]).safe_point :=
  c10_safe_point_monotonic.2.2 (openStore []) [Op.set "a" "1"]
    (inv_openStore [] List.Pairwise.nil)

end Kvs
